import Mathlib

/-!
# Verification of the `upyt` host-side MicroPython tooling

A shallow embedding, in Lean 4, of the parts of the `upyt` code base needed to
check its specification: the `.upyt_id.txt` token codec and synchroniser from
`upyt/sync.py`, the diff planner / patch-command generator / batcher from
`upyt/upy_fs.py` (including the relevant behaviour of Python's
`difflib.SequenceMatcher`), the raw-paste flow-control protocol from
`upyt/upy_repl.py`, and the WebREPL background receiver from
`upyt/connection.py`.

Python `bytes` values are modelled as `List Nat` (each entry a byte value) and
Python `str` values as `List Char`.
-/

namespace Upyt

/-! ## Python primitives

Models of the built-in Python operations the code relies on:
`bytes.decode("ascii")`, `str.encode("ascii")`, `str.split(" ")`, `int(...)`,
f-string `%03d` formatting, `binascii.hexlify`/`unhexlify` and `repr(bytes)`.
-/

/-- `bytes.decode("ascii")`: fails (raises `UnicodeDecodeError`, a subclass of
`ValueError`) on any byte ≥ 0x80. -/
def decodeAscii (bs : List Nat) : Option (List Char) :=
  if bs.all (· < 128) then some (bs.map Char.ofNat) else none

/-- `str.encode("ascii")`: fails on any character with code point ≥ 0x80. -/
def encodeAscii (s : List Char) : Option (List Nat) :=
  if s.all (·.toNat < 128) then some (s.map Char.toNat) else none

/-- `str.split(" ")`: split on every single space, keeping empty fields.
`"".split(" ") == [""]`. -/
def pySplitSpace : List Char → List (List Char)
  | [] => [[]]
  | c :: rest =>
    if c = ' ' then [] :: pySplitSpace rest
    else
      match pySplitSpace rest with
      | [] => [[c]]
      | f :: r => (c :: f) :: r

/-- Decimal digit value of a character, `none` if not `0`-`9`. -/
def pyDigitVal (c : Char) : Option Nat :=
  if '0' ≤ c ∧ c ≤ '9' then some (c.toNat - 48) else none

/-- ASCII whitespace stripped by Python's `int(str)`. -/
def pyWs (c : Char) : Bool :=
  c = ' ' ∨ c = '\t' ∨ c = '\n' ∨ c = '\r' ∨ c.toNat = 11 ∨ c.toNat = 12

mutual

/-- Continuation of a Python integer literal after its first digit: further
digits, with single underscores allowed only between digits. -/
def pyDigitsRest (acc : Nat) : List Char → Option Nat
  | [] => some acc
  | c :: rest =>
    if c = '_' then pyDigitsUnd acc rest
    else
      match pyDigitVal c with
      | some d => pyDigitsRest (acc * 10 + d) rest
      | none => none

/-- State after an underscore inside a Python integer literal: the next
character must be a digit (a trailing or doubled underscore is invalid). -/
def pyDigitsUnd (acc : Nat) : List Char → Option Nat
  | [] => none
  | c :: rest =>
    match pyDigitVal c with
    | some d => pyDigitsRest (acc * 10 + d) rest
    | none => none

end

/-- A nonempty Python digit group (first character must be a digit). -/
def pyDigitsStart : List Char → Option Nat
  | [] => none
  | c :: rest =>
    match pyDigitVal c with
    | some d => pyDigitsRest d rest
    | none => none

/-- Strip leading and trailing ASCII whitespace, as Python's `int(str)` does. -/
def pyStrip (s : List Char) : List Char :=
  ((s.dropWhile pyWs).reverse.dropWhile pyWs).reverse

/-- Sign handling of Python's `int(str)`, applied after whitespace has been
stripped: an optional single `+`/`-` followed by a digit group. -/
def pyIntSigned : List Char → Option Int
  | [] => none
  | c :: rest =>
    if c = '+' then (pyDigitsStart rest).map Int.ofNat
    else if c = '-' then (pyDigitsStart rest).map (fun n => -(n : Int))
    else (pyDigitsStart (c :: rest)).map Int.ofNat

/-- Python's `int(str)`: strip whitespace, optional sign, decimal digits with
underscore separators.  `none` models a raised `ValueError`. -/
def pyInt? (s : List Char) : Option Int :=
  pyIntSigned (pyStrip s)

/-- Decimal digit characters of `n`, most significant first (empty for 0). -/
def natToDecChars (n : Nat) : List Char :=
  (Nat.digits 10 n).reverse.map (fun d => Char.ofNat (48 + d))

/-- Python `str(n)` for a natural number. -/
def pyNatChars (n : Nat) : List Char :=
  if n = 0 then ['0'] else natToDecChars n

/-- Python f-string `f"{v:03d}"`: sign, then zero padding to a total width of
three characters, then decimal digits. -/
def pyFormat03d (v : Int) : List Char :=
  let sign : List Char := if v < 0 then ['-'] else []
  let ds := pyNatChars v.natAbs
  sign ++ List.replicate (3 - (sign.length + ds.length)) '0' ++ ds

/-! ## `upyt/sync.py`: the `.upyt_id.txt` token codec -/

/-- `sync.decode_upyt_id`:

```python
def decode_upyt_id(content: bytes) -> tuple[int, str]:
    version, device_id = content.decode("ascii").split(" ")
    return (int(version), device_id)
```

`none` models a raised `ValueError` (including `UnicodeDecodeError`, which is a
subclass, and the unpacking failure when `split` does not yield two fields). -/
def decodeFields : List (List Char) → Option (Int × List Char)
  | [version, deviceId] => (pyInt? version).map (fun v => (v, deviceId))
  | _ => none

/-- See `decodeFields`: the two-field unpacking plus `int()` call of
`sync.decode_upyt_id`, composed with `.decode("ascii")` and `.split(" ")`. -/
def decode_upyt_id (content : List Nat) : Option (Int × List Char) :=
  (decodeAscii content).bind fun s => decodeFields (pySplitSpace s)

/-- `sync.encode_upyt_id`:

```python
def encode_upyt_id(version: int, device_id: str) -> bytes:
    return f"{version:03d} {device_id}".encode("ascii")
```

`none` models a raised `UnicodeEncodeError` (non-ASCII `device_id`). -/
def encode_upyt_id (version : Int) (deviceId : List Char) : Option (List Nat) :=
  encodeAscii (pyFormat03d version ++ ' ' :: deviceId)

/-- A hexadecimal character (`[0-9A-Fa-f]`, i.e. code points 48-57, 97-102 and
65-70), as used by the spec to describe `device_id` fields. -/
def isHexChar (c : Char) : Bool :=
  (48 ≤ c.toNat ∧ c.toNat ≤ 57) ∨ (97 ≤ c.toNat ∧ c.toNat ≤ 102) ∨
    (65 ≤ c.toNat ∧ c.toNat ≤ 70)

/-! ## `upyt/upy_fs.py`: command batching -/

/-- `"\n".join(parts)`. -/
def pyJoinNl : List (List Char) → List Char
  | [] => []
  | [x] => x
  | x :: y :: rest => x ++ '\n' :: pyJoinNl (y :: rest)

/-- The loop of `upy_fs.batch_commands`, carrying the `this_batch` /
`this_batch_bytes` accumulators:

```python
for command, num_bytes in command_iter:
    if (this_batch_bytes + num_bytes > bytes_per_batch or
            len(this_batch) + 1 > commands_per_batch):
        yield ("\n".join(this_batch), this_batch_bytes)
        this_batch = []
        this_batch_bytes = 0
    this_batch.append(command)
    this_batch_bytes += num_bytes
if this_batch_bytes > 0:
    yield ("\n".join(this_batch), this_batch_bytes)
```

A batch is kept here as the list of its commands; the source yields the string
`pyJoinNl` of that list. -/
def batchCommandsGo (bytesPerBatch commandsPerBatch : Nat)
    (thisBatch : List (List Char)) (thisBatchBytes : Nat) :
    List (List Char × Nat) → List (List (List Char) × Nat)
  | [] => if thisBatchBytes > 0 then [(thisBatch, thisBatchBytes)] else []
  | (command, numBytes) :: rest =>
    if thisBatchBytes + numBytes > bytesPerBatch ∨
        thisBatch.length + 1 > commandsPerBatch then
      (thisBatch, thisBatchBytes) ::
        batchCommandsGo bytesPerBatch commandsPerBatch [command] numBytes rest
    else
      batchCommandsGo bytesPerBatch commandsPerBatch (thisBatch ++ [command])
        (thisBatchBytes + numBytes) rest

/-- `upy_fs.batch_commands` (defaults: `bytes_per_batch=512`,
`commands_per_batch=20`). -/
def batch_commands (commandIter : List (List Char × Nat))
    (bytesPerBatch commandsPerBatch : Nat) : List (List (List Char) × Nat) :=
  batchCommandsGo bytesPerBatch commandsPerBatch [] 0 commandIter

/-! ## `upyt/upy_fs.py`: the diff planner (`combine_sm_operations`) -/

/-- A `difflib.SequenceMatcher` opcode tag. -/
inductive SMTag
  | replace
  | delete
  | insert
  | equal
deriving DecidableEq

/-- A `SequenceMatcher` opcode `(tag, i1, i2, j1, j2)`. -/
structure SMOpcode where
  tag : SMTag
  i1 : Nat
  i2 : Nat
  j1 : Nat
  j2 : Nat
deriving DecidableEq

/-- An operation produced by `combine_sm_operations`: the source represents
these as `("insert", None, None, j1, j2)` and `("equal", i1, i2, None, None)`
tuples (inserts only define `j1, j2`; equals only define `i1, i2`). -/
inductive CombOp
  | ins (j1 j2 : Nat)
  | eq (i1 i2 : Nat)
deriving DecidableEq

/-- The loop of `upy_fs.combine_sm_operations`, carrying the pending opcode
(`cur_opcode_is_real`, `cur_opecode` with its defined indices) and
`read_offset`.  The pending opcode starts as a fake empty insertion
`(j1, j2) = (0, 0)` with `cur_opcode_is_real = False`.  `replace` is treated
as `insert`, `delete` is a no-op, and an `equal` whose span is at most
`equal_overhead` (plus `seek_overhead` when `read_offset != i1`) is merged
into a pending insert. -/
def combineGo (equalOverhead seekOverhead : Nat) :
    List SMOpcode → CombOp → Bool → Nat → List CombOp
  | [], cur, curReal, _ => if curReal then [cur] else []
  | op :: rest, cur, curReal, readOffset =>
    match op.tag with
    | .replace | .insert =>
      match cur with
      | .ins j1 _ =>
        combineGo equalOverhead seekOverhead rest (.ins j1 op.j2) true readOffset
      | .eq _ _ =>
        (if curReal then [cur] else []) ++
          combineGo equalOverhead seekOverhead rest (.ins op.j1 op.j2) true
            readOffset
    | .equal =>
      let overhead := equalOverhead + (if readOffset ≠ op.i1 then seekOverhead else 0)
      match cur with
      | .ins j1 _ =>
        if op.i2 - op.i1 ≤ overhead then
          combineGo equalOverhead seekOverhead rest (.ins j1 op.j2) true readOffset
        else
          (if curReal then [cur] else []) ++
            combineGo equalOverhead seekOverhead rest (.eq op.i1 op.i2) true op.i2
      | .eq _ _ =>
        (if curReal then [cur] else []) ++
          combineGo equalOverhead seekOverhead rest (.eq op.i1 op.i2) true op.i2
    | .delete => combineGo equalOverhead seekOverhead rest cur curReal readOffset

/-- `upy_fs.combine_sm_operations`. -/
def combine_sm_operations (operations : List SMOpcode)
    (equalOverhead seekOverhead : Nat) : List CombOp :=
  combineGo equalOverhead seekOverhead operations (.ins 0 0) false 0

/-! ## `upyt/upy_repl.py`: raw paste mode flow control -/

/-- An observable connection event of `raw_paste_exec`. -/
inductive RPEvent
  | wroteEnter                 -- wrote the entry sequence 0x05 'A' 0x01
  | wroteCode (n : Nat)        -- wrote `n` bytes of the code
  | wroteEot                   -- wrote the terminating 0x04
  | readBytes (bs : List Nat)  -- bytes read from the device
deriving DecidableEq

/-- Final state of the modelled part of `raw_paste_exec`. -/
inductive RPOutcome
  | sentAll                          -- all code bytes were accepted
  | sentSome (remaining : List Nat)  -- device stopped early (SomeCodeNotSentError)
  | valueError                       -- code contained 0x04
  | notSupported                     -- RawPasteModeNotSupportedError
  | protocolError                    -- MicroPythonReplError / struct.error
deriving DecidableEq

/-- How the flow-control send loop stopped. -/
inductive SendExit
  | done        -- loop condition became false: all code sent
  | deviceDone  -- device sent 0x04: it refuses further input
  | protoErr    -- unexpected flow-control byte, or read timeout
deriving DecidableEq

/-- The flow-control loop of `raw_paste_exec`:

```python
while code_utf8 or window_size == 0:
    if window_size == 0:
        response = conn.read(1)
        if response == b"\x01": window_size += window_size_increment
        elif response == b"\x04": break
        else: raise MicroPythonReplError(response)
    written = conn.write(code_utf8[:window_size])
    code_utf8 = code_utf8[written:]
    window_size -= written
```

`conn.write` writes everything it is given on both backends (pyserial's
blocking `write`; `WebReplConnection.write` returns `len(data)`), so
`written = min window (length code)`.  An exhausted `device` list models a
read timeout (`conn.read(1) == b""`, which matches neither `0x01` nor `0x04`).
Returns the events, the unsent code, the unread device bytes and how the loop
exited. -/
def sendLoop (winc : Nat) (code : List Nat) (window : Nat) (device : List Nat) :
    List RPEvent × List Nat × List Nat × SendExit :=
  if h : code = [] ∧ window ≠ 0 then ([], code, device, .done)
  else if hw : window = 0 then
    match device with
    | [] => ([.readBytes []], code, [], .protoErr)
    | b :: device2 =>
      if b = 1 then
        let written := min winc code.length
        let r := sendLoop winc (code.drop written) (winc - written) device2
        (.readBytes [1] :: .wroteCode written :: r.1, r.2)
      else if b = 4 then ([.readBytes [4]], code, device2, .deviceDone)
      else ([.readBytes [b]], code, device2, .protoErr)
  else
    let written := min window code.length
    let r := sendLoop winc (code.drop written) (window - written) device
    (.wroteCode written :: r.1, r.2)
termination_by code.length + device.length
decreasing_by
  · simp [List.length_drop]
    omega
  · simp [List.length_drop]
    have hc : code ≠ [] := fun he => h ⟨he, hw⟩
    have : 0 < code.length := List.length_pos.2 hc
    omega

/-- The acknowledgement drain that follows the terminating 0x04:

```python
while True:
    response = conn.read(1)
    if response == b"\x01": continue
    elif response == b"\x04": break
    else: raise MicroPythonReplError(response)
```

Returns the events, the unread device bytes and whether the 0x04
acknowledgement arrived (`false` models the raised `MicroPythonReplError`). -/
def drainLoop : List Nat → List RPEvent × List Nat × Bool
  | [] => ([.readBytes []], [], false)
  | b :: device2 =>
    if b = 1 then
      let r := drainLoop device2
      (.readBytes [1] :: r.1, r.2)
    else if b = 4 then ([.readBytes [4]], device2, true)
    else ([.readBytes [b]], device2, false)

/-- The three header events of `raw_paste_exec`: the entry sequence
`b"\x05A\x01"` is written, the two-byte mode response `b"R\x01"` is read, and
the two-byte little-endian window size is read. -/
def rpHeader (w0 w1 : Nat) : List RPEvent :=
  [.wroteEnter, .readBytes [82, 1], .readBytes [w0, w1]]

/-- The part of `raw_paste_exec` after the window size has been read and the
code has been checked for 0x04: the send loop, then -- unless the loop raised
-- the terminating 0x04 followed by the acknowledgement drain.  The final
stdout/stderr capture reads further bytes but writes none, so it is outside
this model; `sentAll` stands for the successful return and `sentSome` for the
`SomeCodeNotSentError` raised when code remains unsent. -/
def rawPasteAfterWindow (winc : Nat) (code : List Nat) (deviceRest : List Nat) :
    List RPEvent × RPOutcome :=
  match sendLoop winc code winc deviceRest with
  | (sendEvs, remaining, deviceRest2, sexit) =>
    if sexit = .protoErr then (sendEvs, .protocolError)
    else
      match drainLoop deviceRest2 with
      | (drainEvs, _, ok) =>
        (sendEvs ++ RPEvent.wroteEot :: drainEvs,
          if ok = false then .protocolError
          else if remaining = [] then .sentAll else .sentSome remaining)

/-- `upy_repl.raw_paste_exec`, modelled through the end of the flow-control
protocol.  `code` is the UTF-8 encoding of the code string; `device` is the
sequence of bytes the device delivers, in order.  The entry sequence is
written; the mode response is checked against `b"R\x01"`
(`RawPasteModeNotSupportedError` otherwise); the window size is read
(`struct.error` if short); the code is checked for 0x04 (`ValueError`); then
the flow-control protocol runs. -/
def rawPasteExec (code : List Nat) (device : List Nat) :
    List RPEvent × RPOutcome :=
  let resp := device.take 2
  if resp ≠ [82, 1] then                 -- b"R\x01"
    ([.wroteEnter, .readBytes resp], .notSupported)
  else
    match (device.drop 2).take 2 with
    | [w0, w1] =>
      -- struct.unpack("<H", ...)[0] = w0 + 256 * w1
      if 4 ∈ code then (rpHeader w0 w1, .valueError)
      else
        match rawPasteAfterWindow (w0 + 256 * w1) code (device.drop 4) with
        | (evs, outcome) => (rpHeader w0 w1 ++ evs, outcome)
    | _ =>
      -- fewer than two window-size bytes: struct.unpack raises struct.error
      ([.wroteEnter, .readBytes resp, .readBytes ((device.drop 2).take 2)],
        .protocolError)

/-- Total number of code bytes in the `wroteCode` events of a trace. -/
def evCodeBytes : RPEvent → Nat
  | .wroteCode n => n
  | _ => 0

/-- Sum of code bytes written over a trace. -/
def codeBytesIn (evs : List RPEvent) : Nat := (evs.map evCodeBytes).sum

/-- Whether an event is the read of a single 0x01 window-grant byte. -/
def evIsGrant : RPEvent → Bool
  | .readBytes bs => decide (bs = [1])
  | _ => false

/-- Number of 0x01 window-grant bytes read over a trace. -/
def grantsIn (evs : List RPEvent) : Nat := evs.countP evIsGrant

/-! ## `upyt/connection.py`: the WebREPL background receiver -/

/-- WebSocket opcodes (`connection._WebsocketOpcode`). -/
inductive WsOpcode
  | continuation
  | text
  | binary
  | close
  | ping
  | pong
deriving DecidableEq

/-- A decoded WebSocket frame (`connection._WebsocketFrame`). -/
structure WsFrame where
  fin : Bool
  opcode : WsOpcode
  payload : List Nat
deriving DecidableEq

/-- An effect performed by the receiver loop. -/
inductive WsAction
  | pipeWrite (bs : List Nat)   -- os.write(write_fd, frame.payload)
  | sendFrame (f : WsFrame)     -- self._send_frame(...)
  | sockClose                   -- self._sock.close()
deriving DecidableEq

/-- The receive loop of `WebReplConnection._recv_to_pipe`, over the sequence
of frames the socket delivers:

```python
while True:
    frame = self._recv_frame()
    match frame.opcode:
        case _WebsocketOpcode.text:
            os.write(write_fd, frame.payload)
        case _WebsocketOpcode.close:
            with self._send_lock:
                self._send_frame(close frame); self._sock.close()
            break
        case _WebsocketOpcode.ping:
            with self._send_lock:
                self._send_frame(pong frame with frame.payload)
            break
        case _:
            raise NotImplementedError(frame.opcode)
```

An exhausted input list models a socket that delivers nothing further; the
`NotImplementedError` branch ends the thread with no further action.  Returns
the actions performed, in order. -/
def recvToPipe : List WsFrame → List WsAction
  | [] => []
  | f :: rest =>
    match f.opcode with
    | .text => .pipeWrite f.payload :: recvToPipe rest
    | .close => [.sendFrame ⟨true, .close, []⟩, .sockClose]
    | .ping => [.sendFrame ⟨true, .pong, f.payload⟩]
    | _ => []

/-! ## `FilesystemAPI.get_type` and `PathType` (modelled from the spec) -/

/-- Modelled from the spec: `PathType` is imported from `upyt.upy_fs` by
`sync.py`, `cli/rm.py`, `cli/hybrid_filesystem_api.py` and the tests, but its
definition is absent from this copy of `src/upyt/upy_fs.py`.  Spec section 3:
"PathType = one of {absent, file, dir}.  Returned by get_type; absent is not
an error." -/
inductive PathType
  | absent
  | file
  | dir
deriving DecidableEq

/-- Modelled from the spec: `FilesystemAPI.get_type` is called by `sync.py`
and the CLI but its definition is absent from this copy of
`src/upyt/upy_fs.py`.  Spec section 4.4: "get_type(path) -- query device
stat; classify as file/dir; absent paths return absent (not an error)".  The
device is abstracted as a `stat` oracle: `none` models `os.stat` raising
`OSError` for a missing path, `some mode` is the mode word, with directories
flagged by bit 0x4000 as in the device-side helpers in `upy_fs.py`. -/
def get_type {P : Type} (stat : P → Option Nat) (path : P) : PathType :=
  match stat path with
  | none => .absent
  | some mode => if mode &&& 0x4000 ≠ 0 then .dir else .file

/-! ## `upyt/sync.py`: `sync_to_device` as an event-trace model

`sync_to_device` drives the `FilesystemAPI` facade and the host-side cache.
Paths relative to `host_dir` / `cache_dir` are abstracted as naturals, host
and cache trees as association lists, and the device as an oracle: a list of
responses consumed by successive facade calls (an exhausted oracle behaves as
an erroring device).  The model records the operations performed, in order,
and whether the run completed; the claims checked here are about that event
order. -/

/-- A host or cache entry for a relative path. -/
inductive FsEntry
  | dir
  | file (content : List Nat)
deriving DecidableEq

/-- Association-list lookup for the host/cache trees. -/
def lookupEntry (m : List (Nat × FsEntry)) (p : Nat) : Option FsEntry :=
  match m with
  | [] => none
  | (q, e) :: rest => if q = p then some e else lookupEntry rest p

/-- `Path.is_file()` on an entry. -/
def entryIsFile : FsEntry → Bool
  | .file _ => true
  | .dir => false

/-- `read_bytes()` on a file entry. -/
def entryContent : FsEntry → List Nat
  | .file c => c
  | .dir => []

/-- The response of the device to one facade call.  `err` models a raised
`OSError`, `updErr` an `UpdateError` (meaningful from `update_file`), and
`typ` answers a `get_type` query. -/
inductive DevResp
  | ok
  | err
  | updErr
  | typ (t : PathType)
deriving DecidableEq

/-- Consume the next device response (an exhausted oracle errors). -/
def devCall (oracle : List DevResp) : DevResp × List DevResp :=
  match oracle with
  | [] => (.err, [])
  | r :: rest => (r, rest)

/-- Interpret a response to `get_type`. -/
def respType : DevResp → PathType
  | .typ t => t
  | _ => .absent

/-- An operation performed during `sync_to_device`, in the order the source
performs them. -/
inductive SyncEv
  | devReadToken                    -- fs.read_file of the device token
  | devMkdirRoot                    -- fs.mkdir(device_dir, ...) in get_upyt_id
  | devWriteToken (version : Int)   -- fs.write_file of the device token
  | cacheMkdirRoot                  -- cache_dir.mkdir(parents=True, exist_ok=True)
  | cacheReadToken                  -- (cache_dir / UPYT_ID_FILENAME).read_bytes()
  | cachePrune (p : Nat)            -- unlink/rmtree of a stale cache entry
  | devGetType (p : Nat)            -- fs.get_type(device_path)
  | devRemove (p : Nat)             -- fs.remove_recursive(device_path)
  | devMkdir (p : Nat)              -- fs.mkdir(device_path, exist_ok=True)
  | cacheUnlink (p : Nat)           -- (cache_dir / path).unlink()
  | cacheMkdir (p : Nat)            -- (cache_dir / path).mkdir(exist_ok=True)
  | devUpdateFile (p : Nat)         -- fs.update_file(device_path, ...)
  | devWriteFile (p : Nat)          -- fs.write_file(device_path, ...)
  | cacheRmtree (p : Nat)           -- shutil.rmtree(cache_dir / path)
  | cacheWriteFile (p : Nat)        -- (cache_dir / path).write_bytes(...)
  | cacheWriteToken (version : Int) -- final cache token write
deriving DecidableEq

/-- Whether an event is a directory creation, removal, file update or file
write for the synchronised tree (on the device or mirrored in the cache), as
opposed to token bookkeeping and root setup. -/
def SyncEv.isTreeOp : SyncEv → Bool
  | .cachePrune _ | .devRemove _ | .devMkdir _ | .cacheUnlink _
  | .cacheMkdir _ | .devUpdateFile _ | .devWriteFile _ | .cacheRmtree _
  | .cacheWriteFile _ => true
  | _ => false

/-- The abstract inputs of a `sync_to_device` run.  `devToken` is the device
token file content (`none`: the read raises `OSError`); `freshId` is the
random identifier generated when no valid token exists; `cacheToken` is the
cached token content; `host`/`cache` list the entries under `host_dir` and
the cache directory (token file aside). -/
structure SyncInputs where
  devToken : Option (List Nat)
  freshId : List Char
  cacheToken : Option (List Nat)
  host : List (Nat × FsEntry)
  cache : List (Nat × FsEntry)
  forceEnumerate : Bool
  forceSafe : Bool

/-- `sync.get_upyt_id` when the token is missing or unparseable: version 0 and
a fresh id are chosen, the target directory is created
(`fs.mkdir(device_dir, parents=True, exist_ok=True)`) and the new token is
written.  `none` in the result models an uncaught `OSError` aborting the
run. -/
def genUpytId (freshId : List Char) (oracle : List DevResp) :
    List SyncEv × List DevResp × Option (Int × List Char) :=
  let c1 := devCall oracle
  if c1.1 ≠ DevResp.ok then ([.devReadToken, .devMkdirRoot], c1.2, none)
  else
    let c2 := devCall c1.2
    if c2.1 ≠ DevResp.ok then
      ([.devReadToken, .devMkdirRoot, .devWriteToken 0], c2.2, none)
    else
      ([.devReadToken, .devMkdirRoot, .devWriteToken 0], c2.2, some (0, freshId))

/-- `sync.get_upyt_id`: read and parse the device token, generating a fresh
one on `OSError` (token absent) or `ValueError` (token unparseable). -/
def getUpytId (devToken : Option (List Nat)) (freshId : List Char)
    (oracle : List DevResp) :
    List SyncEv × List DevResp × Option (Int × List Char) :=
  match devToken.bind decode_upyt_id with
  | some (v, did) => ([.devReadToken], oracle, some (v, did))
  | none => genUpytId freshId oracle

/-- The version read from (or generated for) the device token at the start of
a run. -/
def initialVersion (inp : SyncInputs) : Int :=
  match inp.devToken.bind decode_upyt_id with
  | some (v, _) => v
  | none => 0

/-- The to-update test of step 7: a host path must be written when it is new,
its kind flipped between file and directory, or its bytes differ from the
cached copy. -/
def changedFromCache (inp : SyncInputs) (p : Nat) : Bool :=
  match lookupEntry inp.cache p with
  | none => true
  | some ce =>
    match lookupEntry inp.host p with
    | none => true
    | some he =>
      (entryIsFile he ≠ entryIsFile ce) ||
        (entryIsFile he && entryIsFile ce &&
          decide (entryContent he ≠ entryContent ce))

/-- Stable insertion of a path into a sorted list of paths. -/
def insertSorted (a : Nat) : List Nat → List Nat
  | [] => [a]
  | b :: bs => if Nat.ble a b then a :: b :: bs else b :: insertSorted a bs

/-- `sorted(to_update)`. -/
def sortPaths (l : List Nat) : List Nat :=
  l.foldr insertSorted []

/-- The set of host paths that must be written (step 7): everything when the
cache is out of date or enumeration is forced, otherwise only changed
paths. -/
def toUpdatePaths (inp : SyncInputs) (version : Int) : List Nat :=
  let cacheVersion : Option Int :=
    match inp.cacheToken with
    | none => none
    | some content => (decode_upyt_id content).map Prod.fst
  if cacheVersion ≠ some version ∨ inp.forceEnumerate = true then
    inp.host.map Prod.fst
  else (inp.host.map Prod.fst).filter (changedFromCache inp)

/-- The cache-pruning events of step 8: every cached path no longer on the
host (the token file aside) is deleted locally. -/
def pruneEvsOf (inp : SyncInputs) : List SyncEv :=
  ((inp.cache.map Prod.fst).filter
    (fun p => !((inp.host.map Prod.fst).contains p))).map SyncEv.cachePrune

/-- The squatting-entry removal shared by steps 9 and 10: query the path's
type and `remove_recursive` it when it is of the offending kind (`file` for
the directory loop, `dir` for the file loop). -/
def syncRemoveStep (kind : PathType) (p : Nat) (oracle : List DevResp) :
    List SyncEv × List DevResp × Bool :=
  let c1 := devCall oracle
  if respType c1.1 = kind then
    let c2 := devCall c1.2
    ([SyncEv.devGetType p, SyncEv.devRemove p], c2.2, c2.1 = DevResp.ok)
  else ([SyncEv.devGetType p], c1.2, true)

/-- One directory of step 9: query its type, remove a file squatting on the
name, `mkdir(exist_ok=True)` on the device, then mirror into the cache. -/
def syncDirStep (cache : List (Nat × FsEntry)) (p : Nat)
    (oracle : List DevResp) : List SyncEv × List DevResp × Bool :=
  let r := syncRemoveStep PathType.file p oracle
  if r.2.2 = false then (r.1, r.2.1, false)
  else
    let c3 := devCall r.2.1
    if c3.1 ≠ DevResp.ok then
      (r.1 ++ [SyncEv.devMkdir p], c3.2, false)
    else
      ((r.1 ++ [SyncEv.devMkdir p]) ++
        ((if (lookupEntry cache p).elim false entryIsFile then
            [SyncEv.cacheUnlink p]
          else []) ++ [SyncEv.cacheMkdir p]), c3.2, true)

/-- One file of step 10: query its type, remove a directory squatting on the
name, try `update_file` -- whose `OSError`/`UpdateError`, including the cache
copy being unreadable, is caught with a whole-file `write_file` as fallback
-- then mirror into the cache. -/
def syncFileStep (cache : List (Nat × FsEntry)) (p : Nat)
    (oracle : List DevResp) : List SyncEv × List DevResp × Bool :=
  let removeStep := syncRemoveStep PathType.dir p oracle
  if removeStep.2.2 = false then (removeStep.1, removeStep.2.1, false)
  else
    let mirror : List SyncEv :=
      (if (lookupEntry cache p).elim false (fun e => !entryIsFile e) then
        [SyncEv.cacheRmtree p]
      else []) ++ [SyncEv.cacheWriteFile p]
    if (lookupEntry cache p).elim false entryIsFile then
      -- the cached copy is readable: update_file is attempted
      let c3 := devCall removeStep.2.1
      if c3.1 = DevResp.ok then
        ((removeStep.1 ++ [SyncEv.devUpdateFile p]) ++ mirror, c3.2, true)
      else
        -- OSError / UpdateError: caught, whole-file write instead
        let c4 := devCall c3.2
        if c4.1 ≠ DevResp.ok then
          ((removeStep.1 ++ [SyncEv.devUpdateFile p]) ++
            [SyncEv.devWriteFile p], c4.2, false)
        else
          (((removeStep.1 ++ [SyncEv.devUpdateFile p]) ++
            [SyncEv.devWriteFile p]) ++ mirror, c4.2, true)
    else
      -- reading the cached copy raises OSError before update_file runs
      let c3 := devCall removeStep.2.1
      if c3.1 ≠ DevResp.ok then
        (removeStep.1 ++ [SyncEv.devWriteFile p], c3.2, false)
      else ((removeStep.1 ++ [SyncEv.devWriteFile p]) ++ mirror, c3.2, true)

/-- Step 9: `for path in sorted(to_update): if (host_dir / path).is_dir():`. -/
def syncDirsLoop (host cache : List (Nat × FsEntry)) :
    List Nat → List DevResp → List SyncEv × List DevResp × Bool
  | [], oracle => ([], oracle, true)
  | p :: rest, oracle =>
    if (lookupEntry host p).elim false (fun e => !entryIsFile e) then
      let s := syncDirStep cache p oracle
      if s.2.2 = false then (s.1, s.2.1, false)
      else
        let r := syncDirsLoop host cache rest s.2.1
        (s.1 ++ r.1, r.2.1, r.2.2)
    else syncDirsLoop host cache rest oracle

/-- Step 10: `for path in sorted(to_update): if not (host_dir / path).is_dir():`. -/
def syncFilesLoop (host cache : List (Nat × FsEntry)) :
    List Nat → List DevResp → List SyncEv × List DevResp × Bool
  | [], oracle => ([], oracle, true)
  | p :: rest, oracle =>
    if (lookupEntry host p).elim true entryIsFile then
      let s := syncFileStep cache p oracle
      if s.2.2 = false then (s.1, s.2.1, false)
      else
        let r := syncFilesLoop host cache rest s.2.1
        (s.1 ++ r.1, r.2.1, r.2.2)
    else syncFilesLoop host cache rest oracle

/-- Steps 5-11 of `sync_to_device`, after the device token has been marked
dirty: enumerate, prune the cache, create directories, write files, and only
then commit the cache token with the incremented version. -/
def syncBody (inp : SyncInputs) (version : Int) (oracle : List DevResp) :
    List SyncEv × Bool :=
  let d := syncDirsLoop inp.host inp.cache
    (sortPaths (toUpdatePaths inp version)) oracle
  if d.2.2 = false then (pruneEvsOf inp ++ d.1, false)
  else
    let f := syncFilesLoop inp.host inp.cache
      (sortPaths (toUpdatePaths inp version)) d.2.1
    if f.2.2 = false then ((pruneEvsOf inp ++ d.1) ++ f.1, false)
    else
      (((pruneEvsOf inp ++ d.1) ++ f.1) ++
        [SyncEv.cacheWriteToken (version + 1)], true)

/-- `sync_to_device` after the token version has been determined: mark the
device token dirty with `version + 1`, then run the body. -/
def syncAfterId (inp : SyncInputs) (version : Int) (evsPre : List SyncEv)
    (oracle : List DevResp) : List SyncEv × Bool :=
  let c := devCall oracle
  if c.1 ≠ DevResp.ok then
    (evsPre ++ [SyncEv.devWriteToken (version + 1)], false)
  else
    let b := syncBody inp version c.2
    ((evsPre ++ [SyncEv.devWriteToken (version + 1)]) ++ b.1, b.2)

/-- `sync.sync_to_device`, as an event trace plus a completion flag (`false`
models an uncaught exception propagating out of the run). -/
def sync_to_device (inp : SyncInputs) (oracle : List DevResp) :
    List SyncEv × Bool :=
  let g := getUpytId inp.devToken inp.freshId oracle
  match g.2.2 with
  | none => (g.1, false)
  | some (version, _) =>
    syncAfterId inp version
      (g.1 ++ [SyncEv.cacheMkdirRoot, SyncEv.cacheReadToken]) g.2.1

/-! ## `upyt/upy_fs.py`: `data_to_writes` / `data_to_update_commands` (C1)

The source drives `difflib.SequenceMatcher(None, old_content, new_content)`
with `autojunk` left at its default, so the standard-library matcher is part
of the program's semantics and is embedded here: `b2j` (with the autojunk
popularity cut at `len(b) >= 200`), `find_longest_match` (the `j2len`
dynamic-programming loop followed by the two non-junk extension loops; the
two junk extension loops are vacuous because `isjunk is None` makes `bjunk`
empty), `get_matching_blocks` and `get_opcodes`.  Loops whose Python
counterparts are `while`/`for` loops over shrinking ranges are written with
an explicit fuel argument that is large enough at every call site, keeping
every definition structurally recursive and hence kernel-evaluable. -/

/-- `len(str(n))` for a natural number `n`: the number of decimal digits
(one for `0`).  The fuel argument is the number still to be divided; `n`
itself is always sufficient. -/
def decLenGo : Nat → Nat → Nat
  | 0, _ => 0
  | fuel + 1, n => if n = 0 then 0 else decLenGo fuel (n / 10) + 1

/-- `len(str(n))` (Python decimal formatting of a non-negative int). -/
def pyStrLen (n : Nat) : Nat :=
  if n = 0 then 1 else decLenGo n n

/-- The ASCII code of the lowercase hex digit for `d < 16`, as produced by
`binascii.hexlify`. -/
def hexDigitChar (d : Nat) : Nat :=
  if d < 10 then 48 + d else 87 + d

/-- `binascii.hexlify`: each byte becomes two lowercase hex digit bytes. -/
def hexlify (l : List Nat) : List Nat :=
  (l.map (fun c => [hexDigitChar (c / 16), hexDigitChar (c % 16)])).flatten

/-- The value of an ASCII hex digit (`0-9`, `a-f`, `A-F`), `none` otherwise. -/
def hexCharVal (c : Nat) : Option Nat :=
  if 48 ≤ c ∧ c ≤ 57 then some (c - 48)
  else if 97 ≤ c ∧ c ≤ 102 then some (c - 87)
  else if 65 ≤ c ∧ c ≤ 70 then some (c - 55)
  else none

/-- `binascii.unhexlify`: pairs of hex digits back to bytes; `none` models
the `binascii.Error` raised on odd length or a non-hex digit. -/
def unhexlify : List Nat → Option (List Nat)
  | [] => some []
  | [_] => none
  | h :: l :: rest =>
    match hexCharVal h, hexCharVal l, unhexlify rest with
    | some hv, some lv, some r => some ((hv * 16 + lv) :: r)
    | _, _, _ => none

/-- The number of characters contributed by one byte to `repr(bytes)` when
the chosen quote character is `q`: backslash, the quote, `\t`, `\n`, `\r`
print as two characters, other printable ASCII as one, everything else as a
four-character `\xHH` escape. -/
def pyByteReprCharLen (q c : Nat) : Nat :=
  if c = 92 then 2
  else if c = q then 2
  else if c = 9 ∨ c = 10 ∨ c = 13 then 2
  else if 32 ≤ c ∧ c ≤ 126 then 1
  else 4

/-- `len(repr(l))` for a bytes object `l`: `b`, two quotes, and the escaped
body.  CPython quotes with `'` unless the bytes contain `'` but no `"`. -/
def pyBytesReprLen (l : List Nat) : Nat :=
  let q := if 39 ∈ l ∧ ¬ 34 ∈ l then 34 else 39
  3 + (l.map (pyByteReprCharLen q)).sum

/-- `SequenceMatcher.__chain_b`'s `b2j` before the autojunk cut: the indices
`i` with `b[i] = c`, in increasing order. -/
def b2jAll (b : List Nat) (c : Nat) : List Nat :=
  (List.range b.length).filter (fun i => b.getD i 0 = c)

/-- `b2j` lookup with the autojunk rule: when `len(b) >= 200`, elements
occurring more than `len(b) // 100 + 1` times are deleted from the map, so
lookups of those (and of absent elements) return the empty list. -/
def b2j (b : List Nat) (c : Nat) : List Nat :=
  let idxs := b2jAll b c
  if 200 ≤ b.length ∧ b.length / 100 + 1 < idxs.length then [] else idxs

/-- The inner loop of `find_longest_match` for row `i`: walk the (increasing)
match positions `js` of `a[i]` in `b`, skipping `j < blo` (`continue`),
stopping at `j >= bhi` (`break`), and otherwise recording
`k = j2len.get(j - 1, 0) + 1` in `newj2len` (the `j = 0` case reads the
absent key `-1`, hence `0`) and taking the best over `k`. -/
def flmInnerGo (i blo bhi : Nat) (j2len : Nat → Nat) :
    List Nat → (Nat → Nat) → Nat × Nat × Nat → (Nat → Nat) × (Nat × Nat × Nat)
  | [], news, best => (news, best)
  | j :: js, news, best =>
    if j < blo then flmInnerGo i blo bhi j2len js news best
    else if bhi ≤ j then (news, best)
    else
      let k := (if j = 0 then 0 else j2len (j - 1)) + 1
      let news2 := fun j2 => if j2 = j then k else news j2
      let best2 := if best.2.2 < k then (i + 1 - k, j + 1 - k, k) else best
      flmInnerGo i blo bhi j2len js news2 best2

/-- The outer loop of `find_longest_match` over rows `i` in
`range(alo, ahi)`; the fuel is `ahi - alo` at the call site, so exactly the
rows `alo, ..., ahi - 1` are processed. -/
def flmOuter (a : List Nat) (bjf : Nat → List Nat) (blo bhi : Nat) :
    Nat → Nat → (Nat → Nat) → Nat × Nat × Nat → Nat × Nat × Nat
  | _, 0, _, best => best
  | i, fuel + 1, j2len, best =>
    let r := flmInnerGo i blo bhi j2len (bjf (a.getD i 0)) (fun _ => 0) best
    flmOuter a bjf blo bhi (i + 1) fuel r.1 r.2

/-- The first (downward) extension loop of `find_longest_match`.  Each step
decrements `besti`, so fuel `besti` is always sufficient. -/
def flmExtLo (a b : List Nat) (alo blo : Nat) :
    Nat → Nat × Nat × Nat → Nat × Nat × Nat
  | 0, best => best
  | fuel + 1, best =>
    if alo < best.1 ∧ blo < best.2.1 ∧
        a.getD (best.1 - 1) 0 = b.getD (best.2.1 - 1) 0 then
      flmExtLo a b alo blo fuel (best.1 - 1, best.2.1 - 1, best.2.2 + 1)
    else best

/-- The second (upward) extension loop of `find_longest_match`.  Each step
increments `bestsize` while `besti + bestsize < ahi`, so fuel `ahi` is
always sufficient. -/
def flmExtHi (a b : List Nat) (ahi bhi : Nat) :
    Nat → Nat × Nat × Nat → Nat × Nat × Nat
  | 0, best => best
  | fuel + 1, best =>
    if best.1 + best.2.2 < ahi ∧ best.2.1 + best.2.2 < bhi ∧
        a.getD (best.1 + best.2.2) 0 = b.getD (best.2.1 + best.2.2) 0 then
      flmExtHi a b ahi bhi fuel (best.1, best.2.1, best.2.2 + 1)
    else best

/-- `SequenceMatcher.find_longest_match` (with `isjunk=None`): the dynamic
programming pass, then the two non-junk extension loops; the junk extension
loops never fire because `bjunk` is empty. -/
def find_longest_match (a b : List Nat) (bjf : Nat → List Nat)
    (alo ahi blo bhi : Nat) : Nat × Nat × Nat :=
  let best0 := flmOuter a bjf blo bhi alo (ahi - alo) (fun _ => 0) (alo, blo, 0)
  let best1 := flmExtLo a b alo blo best0.1 best0
  flmExtHi a b ahi bhi ahi best1

/-- The recursion of `get_matching_blocks`.  The source drives an explicit
LIFO queue and sorts the collected blocks afterwards; since the blocks of
the two subproblems lie strictly left and right of the middle match, that is
the same list as this in-order recursion produces.  Fuel
`len(a) + len(b) + 1` at the call site dominates the recursion depth. -/
def matchingBlocksGo (a b : List Nat) (bjf : Nat → List Nat) :
    Nat → Nat → Nat → Nat → Nat → List (Nat × Nat × Nat)
  | 0, _, _, _, _ => []
  | fuel + 1, alo, ahi, blo, bhi =>
    let m := find_longest_match a b bjf alo ahi blo bhi
    if m.2.2 = 0 then []
    else
      (if alo < m.1 ∧ blo < m.2.1 then
        matchingBlocksGo a b bjf fuel alo m.1 blo m.2.1
      else []) ++
        [m] ++
        (if m.1 + m.2.2 < ahi ∧ m.2.1 + m.2.2 < bhi then
          matchingBlocksGo a b bjf fuel (m.1 + m.2.2) ahi (m.2.1 + m.2.2) bhi
        else [])

/-- The adjacent-block collapsing loop at the end of `get_matching_blocks`,
carrying the pending block `(i1, j1, k1)` (initially `(0, 0, 0)`). -/
def collapseGo : Nat × Nat × Nat → List (Nat × Nat × Nat) → List (Nat × Nat × Nat)
  | (i1, j1, k1), [] => if k1 ≠ 0 then [(i1, j1, k1)] else []
  | (i1, j1, k1), (i2, j2, k2) :: rest =>
    if i1 + k1 = i2 ∧ j1 + k1 = j2 then collapseGo (i1, j1, k1 + k2) rest
    else (if k1 ≠ 0 then [(i1, j1, k1)] else []) ++ collapseGo (i2, j2, k2) rest

/-- `SequenceMatcher.get_matching_blocks`: the recursive split on longest
matches, collapsed, with the `(la, lb, 0)` terminator appended. -/
def get_matching_blocks (a b : List Nat) : List (Nat × Nat × Nat) :=
  collapseGo (0, 0, 0)
      (matchingBlocksGo a b (b2j b) (a.length + b.length + 1) 0 a.length 0
        b.length) ++
    [(a.length, b.length, 0)]

/-- The loop of `SequenceMatcher.get_opcodes` over the matching blocks,
carrying the cursor `(i, j)`. -/
def getOpcodesGo : Nat → Nat → List (Nat × Nat × Nat) → List SMOpcode
  | _, _, [] => []
  | i, j, (ai, bj, size) :: rest =>
    (if i < ai ∧ j < bj then [⟨SMTag.replace, i, ai, j, bj⟩]
    else if i < ai then [⟨SMTag.delete, i, ai, j, bj⟩]
    else if j < bj then [⟨SMTag.insert, i, ai, j, bj⟩]
    else []) ++
      (if size ≠ 0 then [⟨SMTag.equal, ai, ai + size, bj, bj + size⟩] else []) ++
      getOpcodesGo (ai + size) (bj + size) rest

/-- `SequenceMatcher(None, a, b).get_opcodes()`. -/
def get_opcodes (a b : List Nat) : List SMOpcode :=
  getOpcodesGo 0 0 (get_matching_blocks a b)

/-- An update command, as generated by `data_to_writes` /
`data_to_update_commands`: `wLit data` is `w({data!r})`, `wHex hx` is
`w(uh({hx!r}))` with `hx` the hexlified bytes, `seek i` is `s({i})` and
`wRead n` is `w(r({n}))`. -/
inductive UpdateCmd
  | wLit (data : List Nat)
  | wHex (hx : List Nat)
  | seek (i : Nat)
  | wRead (n : Nat)
deriving DecidableEq

/-- The `while data:` loop of `upy_fs.data_to_writes`: emit blocks of up to
`blockSize` bytes, as a byte-string literal when
`len(f"w({block!r})") < len('w(uh(b""))') + 2 * len(block)` and as hex
otherwise.  Fuel `len(data)` is sufficient whenever `blockSize >= 1`. -/
def dataToWritesGo (blockSize : Nat) : Nat → List Nat → List (UpdateCmd × Nat)
  | 0, _ => []
  | fuel + 1, data =>
    if data.isEmpty then []
    else
      let block := data.take blockSize
      (if pyBytesReprLen block + 3 < 10 + 2 * block.length then
        (UpdateCmd.wLit block, block.length)
      else (UpdateCmd.wHex (hexlify block), block.length)) ::
        dataToWritesGo blockSize fuel (data.drop blockSize)

/-- `upy_fs.data_to_writes`. -/
def data_to_writes (data : List Nat) (blockSize : Nat) : List (UpdateCmd × Nat) :=
  dataToWritesGo blockSize data.length data

/-- The `while read_offset < i2:` loop of `data_to_update_commands`: emit
`w(r(length))` with `length = min(i2 - read_offset, block_size)`.  Fuel `i2`
is sufficient whenever `blockSize >= 1`. -/
def readLoopGo (blockSize : Nat) : Nat → Nat → Nat → List (UpdateCmd × Nat)
  | 0, _, _ => []
  | fuel + 1, ro, i2 =>
    if ro < i2 then
      (UpdateCmd.wRead (min (i2 - ro) blockSize), min (i2 - ro) blockSize) ::
        readLoopGo blockSize fuel (ro + min (i2 - ro) blockSize) i2
    else []

/-- The main loop of `data_to_update_commands` over the combined operations,
carrying `read_offset`.  An insert yields `data_to_writes` of
`new_content[j1:j2]`; an equal yields a seek when `read_offset != i1`
followed by the read loop, leaving `read_offset = max i1 i2` (the loop sets
it to `i1` and then advances it to `i2` when `i1 < i2`). -/
def updCmdsGo (newC : List Nat) (blockSize : Nat) :
    Nat → List CombOp → List (UpdateCmd × Nat)
  | _, [] => []
  | ro, CombOp.ins j1 j2 :: rest =>
    data_to_writes ((newC.drop j1).take (j2 - j1)) blockSize ++
      updCmdsGo newC blockSize ro rest
  | ro, CombOp.eq i1 i2 :: rest =>
    (if ro ≠ i1 then [(UpdateCmd.seek i1, 0)] else []) ++
      readLoopGo blockSize i2 i1 i2 ++
      updCmdsGo newC blockSize (max i1 i2) rest

/-- `upy_fs.data_to_update_commands` (with `hasher=None`): guess whether hex
mode will dominate from the first block of `new_content`, halve the seek and
equal overheads accordingly, combine the SequenceMatcher opcodes and emit
the commands. -/
def data_to_update_commands (old newC : List Nat) (blockSize : Nat) :
    List (UpdateCmd × Nat) :=
  let sample := newC.take blockSize
  let probablyMostlyHex := 2 * sample.length < pyBytesReprLen sample - 3
  let overheadScale := if probablyMostlyHex then 2 else 1
  let seekOverhead := (4 + pyStrLen (old.length / 2)) / overheadScale
  let equalOverhead := 8 / overheadScale
  updCmdsGo newC blockSize 0
    (combine_sm_operations (get_opcodes old newC) equalOverhead seekOverhead)

/-- The state of the patch interpreter of claim C1: the bytes written to the
output file so far and the read cursor of the old file. -/
structure PatchState where
  out : List Nat
  pos : Nat
deriving DecidableEq

/-- Interpret one update command against the old file: `w` appends its
argument to the output, `uh` is unhexlify (a failed parse contributes
nothing), `r(n)` reads up to `n` bytes at the cursor (advancing it by the
number of bytes actually read, as a file read does) and `s(i)` seeks. -/
def runCmd (old : List Nat) (st : PatchState) : UpdateCmd → PatchState
  | .wLit data => ⟨st.out ++ data, st.pos⟩
  | .wHex hx => ⟨st.out ++ ((unhexlify hx).getD []), st.pos⟩
  | .seek i => ⟨st.out, i⟩
  | .wRead n => ⟨st.out ++ (old.drop st.pos).take n,
      st.pos + ((old.drop st.pos).take n).length⟩

/-- Interpret a command stream in order, starting from an empty output file
and cursor 0. -/
def applyCmds (old : List Nat) (cmds : List UpdateCmd) : PatchState :=
  cmds.foldl (runCmd old) ⟨[], 0⟩

/-- A valid intermediate match candidate of `find_longest_match`'s dynamic
programming pass: a common segment of length `k` ending at `a[i]` / `b[j]`
that starts no earlier than `alo` / `blo`. -/
def Cand (a b : List Nat) (alo blo i j k : Nat) : Prop :=
  alo + k ≤ i + 1 ∧ blo + k ≤ j + 1 ∧
    ∀ t < k, a.getD (i + 1 - k + t) 0 = b.getD (j + 1 - k + t) 0

/-- Soundness of a `find_longest_match` result `(besti, bestj, bestsize)`:
it lies inside the requested window and is a genuine common segment. -/
def BestOK (a b : List Nat) (alo blo ahi bhi : Nat) (m : Nat × Nat × Nat) : Prop :=
  alo ≤ m.1 ∧ blo ≤ m.2.1 ∧ m.1 + m.2.2 ≤ ahi ∧ m.2.1 + m.2.2 ≤ bhi ∧
    ∀ t < m.2.2, a.getD (m.1 + t) 0 = b.getD (m.2.1 + t) 0

/-- A sound chain of raw matching blocks inside the window
`[alo, ahi) x [blo, bhi)`: nonempty genuine matches, in order. -/
def BlocksIn (a b : List Nat) : Nat → Nat → Nat → Nat → List (Nat × Nat × Nat) → Prop
  | _, _, _, _, [] => True
  | alo, blo, ahi, bhi, (i, j, k) :: rest =>
    alo ≤ i ∧ blo ≤ j ∧ i + k ≤ ahi ∧ j + k ≤ bhi ∧ 1 ≤ k ∧
      (∀ t < k, a.getD (i + t) 0 = b.getD (j + t) 0) ∧
      BlocksIn a b (i + k) (j + k) ahi bhi rest

/-- A sound chain of matching blocks over the whole inputs (blocks may be
empty here, as the `(la, lb, 0)` terminator is). -/
def BlocksChain (a b : List Nat) : Nat → Nat → List (Nat × Nat × Nat) → Prop
  | _, _, [] => True
  | i0, j0, (i, j, k) :: rest =>
    i0 ≤ i ∧ j0 ≤ j ∧ i + k ≤ a.length ∧ j + k ≤ b.length ∧
      (∀ t < k, a.getD (i + t) 0 = b.getD (j + t) 0) ∧
      BlocksChain a b (i + k) (j + k) rest

/-- The `j` position a block chain ends at (the `bj + size` of its last
block), starting from `j0`. -/
def chainEndJ : Nat → List (Nat × Nat × Nat) → Nat
  | j, [] => j
  | _, (_, j, k) :: rest => chainEndJ (j + k) rest

/-- Soundness of an opcode list with respect to `new_content` (`b`): the
`[j1, j2)` spans tile `[j0, jend)` in order, deletes span no `b` content,
and equal opcodes denote genuine common segments with matching lengths. -/
def OpsOKp (a b : List Nat) : Nat → List SMOpcode → Nat → Prop
  | j0, [], jend => j0 = jend
  | j0, op :: rest, jend =>
    op.j1 = j0 ∧ op.j1 ≤ op.j2 ∧ op.j2 ≤ b.length ∧
      (op.tag = SMTag.delete → op.j1 = op.j2) ∧
      (op.tag = SMTag.equal → op.i1 ≤ op.i2 ∧ op.i2 ≤ a.length ∧
        op.j2 - op.j1 = op.i2 - op.i1 ∧
        (a.drop op.i1).take (op.i2 - op.i1) = (b.drop op.j1).take (op.j2 - op.j1)) ∧
      OpsOKp a b op.j2 rest jend

/-- The bytes a combined operation contributes to the patched file: an
insert contributes `new_content[j1:j2]` literally, an equal contributes
`old_content[i1:i2]` via seek/read. -/
def combMeaning (a b : List Nat) : CombOp → List Nat
  | .ins j1 j2 => (b.drop j1).take (j2 - j1)
  | .eq i1 i2 => (a.drop i1).take (i2 - i1)

/-! ## Helper lemmas -/

theorem char_toNat_ofNat {n : Nat} (h : n < 128) : (Char.ofNat n).toNat = n := by
  unfold Char.ofNat
  split
  · rfl
  · rename_i hv
    exact absurd (Or.inl (by omega)) hv

theorem decodeAscii_map_toNat (s : List Char) (h : ∀ c ∈ s, c.toNat < 128) :
    decodeAscii (s.map Char.toNat) = some s := by
  unfold decodeAscii
  rw [if_pos]
  · rw [List.map_map]
    congr 1
    refine List.map_congr_left ?_ |>.trans (List.map_id s)
    intro c hc
    exact Char.ofNat_toNat c
  · simpa using h

theorem pySplitSpace_nospace (xs : List Char) (h : ∀ c ∈ xs, c ≠ ' ') :
    pySplitSpace xs = [xs] := by
  induction xs with
  | nil => rfl
  | cons c rest ih =>
    rw [pySplitSpace, if_neg (h c (by simp))]
    rw [ih (fun x hx => h x (by simp [hx]))]

theorem pySplitSpace_ne_nil (s : List Char) : pySplitSpace s ≠ [] := by
  cases s with
  | nil => simp [pySplitSpace]
  | cons c rest =>
    rw [pySplitSpace]
    split
    · simp
    · cases hr : pySplitSpace rest <;> simp

theorem pySplitSpace_append (xs ys : List Char) (h : ∀ c ∈ xs, c ≠ ' ') :
    pySplitSpace (xs ++ ' ' :: ys) = xs :: pySplitSpace ys := by
  induction xs with
  | nil => simp [pySplitSpace]
  | cons c rest ih =>
    rw [List.cons_append, pySplitSpace, if_neg (h c (by simp))]
    rw [ih (fun x hx => h x (by simp [hx]))]

theorem pyDigitVal_digitChar {d : Nat} (h : d < 10) :
    pyDigitVal (Char.ofNat (48 + d)) = some d := by
  interval_cases d <;> decide

theorem digitChar_toNat {d : Nat} (h : d < 10) :
    (Char.ofNat (48 + d)).toNat = 48 + d :=
  char_toNat_ofNat (by omega)

theorem digitChar_ne {d : Nat} (h : d < 10) (target : Char)
    (ht : target.toNat < 48 ∨ 57 < target.toNat) :
    Char.ofNat (48 + d) ≠ target := by
  intro he
  have := digitChar_toNat h
  rw [he] at this
  omega

theorem pyDigitsRest_digits (ds : List Nat) (acc : Nat) (h : ∀ d ∈ ds, d < 10) :
    pyDigitsRest acc (ds.map (fun d => Char.ofNat (48 + d))) =
      some (ds.foldl (fun a d => a * 10 + d) acc) := by
  induction ds generalizing acc with
  | nil => rfl
  | cons d ds ih =>
    have hd : d < 10 := h d (by simp)
    rw [List.map_cons]
    simp only [pyDigitsRest]
    rw [if_neg (digitChar_ne hd '_' (by decide)),
      pyDigitVal_digitChar hd, List.foldl_cons]
    exact ih _ (fun x hx => h x (by simp [hx]))

theorem pyDigitsStart_digits (ds : List Nat) (h : ∀ d ∈ ds, d < 10) (hne : ds ≠ []) :
    pyDigitsStart (ds.map (fun d => Char.ofNat (48 + d))) =
      some (ds.foldl (fun a d => a * 10 + d) 0) := by
  cases ds with
  | nil => exact absurd rfl hne
  | cons d ds =>
    have hd : d < 10 := h d (by simp)
    rw [List.map_cons, pyDigitsStart, pyDigitVal_digitChar hd, List.foldl_cons]
    simpa using pyDigitsRest_digits ds d (fun x hx => h x (by simp [hx]))

theorem foldl_reverse_digits (l : List Nat) (acc : Nat) :
    l.reverse.foldl (fun a d => a * 10 + d) acc =
      acc * 10 ^ l.length + Nat.ofDigits 10 l := by
  induction l generalizing acc with
  | nil => simp
  | cons d l ih =>
    rw [List.reverse_cons, List.foldl_append, ih]
    simp only [List.foldl_cons, List.foldl_nil, List.length_cons, Nat.ofDigits_cons]
    ring

/-- `pyNatChars n` renders `n` as digit characters whose value folds back to
`n`. -/
theorem pyNatChars_spec (n : Nat) :
    ∃ ds : List Nat, pyNatChars n = ds.map (fun d => Char.ofNat (48 + d)) ∧
      (∀ d ∈ ds, d < 10) ∧ ds ≠ [] ∧ ds.foldl (fun a d => a * 10 + d) 0 = n := by
  by_cases h0 : n = 0
  · exact ⟨[0], by simp [h0, pyNatChars], by simp, by simp, by simp [h0]⟩
  · refine ⟨(Nat.digits 10 n).reverse, ?_, ?_, ?_, ?_⟩
    · simp [pyNatChars, h0, natToDecChars]
    · intro d hd
      exact Nat.digits_lt_base (by norm_num) (by simpa using hd)
    · simp [Nat.digits_ne_nil_iff_ne_zero, h0]
    · rw [show (Nat.digits 10 n).reverse = ((Nat.digits 10 n).reverse.reverse).reverse
        by simp, List.reverse_reverse, foldl_reverse_digits]
      simp [Nat.ofDigits_digits]

theorem foldl_digits_pad (k : Nat) (ds : List Nat) :
    (List.replicate k 0 ++ ds).foldl (fun a d => a * 10 + d) 0 =
      ds.foldl (fun a d => a * 10 + d) 0 := by
  induction k with
  | zero => rfl
  | succ k ih => simpa using ih

theorem pyStrip_of_nows (s : List Char) (h : ∀ c ∈ s, pyWs c = false) :
    pyStrip s = s := by
  have drop1 : s.dropWhile pyWs = s := by
    cases s with
    | nil => rfl
    | cons c rest => rw [List.dropWhile_cons, if_neg (by simp [h c (by simp)])]
  rw [pyStrip, drop1]
  have drop2 : s.reverse.dropWhile pyWs = s.reverse := by
    cases hs : s.reverse with
    | nil => rfl
    | cons c rest =>
      rw [List.dropWhile_cons, if_neg]
      have hc : c ∈ s := by
        rw [← List.mem_reverse, hs]; simp
      simp [h c hc]
  rw [drop2, List.reverse_reverse]

theorem pyWs_digitChar {d : Nat} (h : d < 10) : pyWs (Char.ofNat (48 + d)) = false := by
  have ht := digitChar_toNat h
  unfold pyWs
  have h32 : Char.ofNat (48 + d) ≠ ' ' := digitChar_ne h ' ' (by decide)
  have h9 : Char.ofNat (48 + d) ≠ '\t' := digitChar_ne h '\t' (by decide)
  have h10 : Char.ofNat (48 + d) ≠ '\n' := digitChar_ne h '\n' (by decide)
  have h13 : Char.ofNat (48 + d) ≠ '\r' := digitChar_ne h '\r' (by decide)
  simp [h32, h9, h10, h13]
  omega

/-- Parsing the digit characters produced for a non-negative value, with any
amount of leading zero padding, gives the value back. -/
theorem pyInt_pad_pyNatChars (k n : Nat) :
    pyInt? (List.replicate k '0' ++ pyNatChars n) = some (Int.ofNat n) := by
  obtain ⟨ds, hmap, hlt, hne, hval⟩ := pyNatChars_spec n
  have hall : List.replicate k '0' ++ pyNatChars n =
      (List.replicate k 0 ++ ds).map (fun d => Char.ofNat (48 + d)) := by
    rw [List.map_append, hmap]
    congr 1
    rw [List.map_replicate]
  have hlt2 : ∀ d ∈ List.replicate k 0 ++ ds, d < 10 := by
    intro d hd
    rcases List.mem_append.1 hd with hd | hd
    · have := List.eq_of_mem_replicate hd
      omega
    · exact hlt d hd
  have hne2 : List.replicate k 0 ++ ds ≠ [] := by
    simp [hne]
  rw [hall, pyInt?]
  have hstrip : pyStrip ((List.replicate k 0 ++ ds).map (fun d => Char.ofNat (48 + d))) =
      (List.replicate k 0 ++ ds).map (fun d => Char.ofNat (48 + d)) := by
    apply pyStrip_of_nows
    intro c hc
    obtain ⟨d, hd, rfl⟩ := List.mem_map.1 hc
    exact pyWs_digitChar (hlt2 d hd)
  rw [hstrip]
  cases hcase : (List.replicate k 0 ++ ds).map (fun d => Char.ofNat (48 + d)) with
  | nil => simp at hcase; exact absurd hcase.2 hne
  | cons c rest =>
    have hcmem : c ∈ (List.replicate k 0 ++ ds).map (fun d => Char.ofNat (48 + d)) := by
      rw [hcase]; simp
    obtain ⟨d, hd, rfl⟩ := List.mem_map.1 hcmem
    have hdlt := hlt2 d hd
    rw [pyIntSigned,
      if_neg (digitChar_ne hdlt '+' (by decide)),
      if_neg (digitChar_ne hdlt '-' (by decide)),
      ← hcase, pyDigitsStart_digits _ hlt2 hne2, foldl_digits_pad, hval]
    rfl

theorem encodeAscii_of_lt (s : List Char) (h : ∀ c ∈ s, c.toNat < 128) :
    encodeAscii s = some (s.map Char.toNat) := by
  unfold encodeAscii
  rw [if_pos (by simpa using h)]

theorem pySplitSpace_length (s : List Char) :
    (pySplitSpace s).length = s.count ' ' + 1 := by
  induction s with
  | nil => rfl
  | cons c rest ih =>
    rw [pySplitSpace]
    by_cases hc : c = ' '
    · rw [if_pos hc]
      simp [hc, ih, List.count_cons]
    · rw [if_neg hc]
      cases hr : pySplitSpace rest with
      | nil => exact absurd hr (pySplitSpace_ne_nil rest)
      | cons f r =>
        have := ih
        rw [hr] at this
        simp only [List.length_cons] at this ⊢
        simp only [List.count_cons]
        simp [hc]
        omega

theorem pySplitSpace_head (s : List Char) :
    ∃ t, pySplitSpace s = (s.takeWhile (· ≠ ' ')) :: t := by
  induction s with
  | nil => exact ⟨[], rfl⟩
  | cons c rest ih =>
    rw [pySplitSpace]
    by_cases hc : c = ' '
    · rw [if_pos hc]
      refine ⟨pySplitSpace rest, ?_⟩
      rw [List.takeWhile_cons, if_neg (by simp [hc])]
    · rw [if_neg hc]
      obtain ⟨t, ht⟩ := ih
      rw [ht]
      refine ⟨t, ?_⟩
      rw [List.takeWhile_cons, if_pos (by simp [hc])]

theorem count32_map_ofNat (bs : List Nat) (h : ∀ b ∈ bs, b < 128) :
    (bs.map Char.ofNat).count ' ' = bs.count 32 := by
  induction bs with
  | nil => rfl
  | cons b rest ih =>
    have hb : b < 128 := h b (by simp)
    have ihr := ih (fun x hx => h x (by simp [hx]))
    by_cases hb32 : b = 32
    · subst hb32
      simp [List.count_cons, ihr]
    · have hne : Char.ofNat b ≠ ' ' := by
        intro he
        have := char_toNat_ofNat hb
        rw [he] at this
        exact hb32 (by simpa using this.symm)
      simp [List.count_cons, ihr, hb32, hne]

theorem takeWhile_map_ofNat (bs : List Nat) (h : ∀ b ∈ bs, b < 128) :
    (bs.map Char.ofNat).takeWhile (· ≠ ' ') =
      (bs.takeWhile (· ≠ 32)).map Char.ofNat := by
  induction bs with
  | nil => rfl
  | cons b rest ih =>
    have hb : b < 128 := h b (by simp)
    by_cases h32 : b = 32
    · subst h32
      simp [List.takeWhile_cons]
    · have hne : Char.ofNat b ≠ ' ' := by
        intro he
        have := char_toNat_ofNat hb
        rw [he] at this
        exact h32 (by simpa using this.symm)
      simp only [List.map_cons, List.takeWhile_cons]
      rw [if_pos (by simp [hne]), if_pos (by simp [h32]), List.map_cons,
        ih (fun x hx => h x (by simp [hx]))]

/-- C4: round-trip of the `.upyt_id.txt` codec.  For `0 ≤ version < 1000` and a
twelve-hex-character `device_id`, encoding succeeds and
`decode_upyt_id (encode_upyt_id version device_id) = (version, device_id)`. -/
theorem upyt_id_roundtrip (v : Int) (d : List Char)
    (h0 : 0 ≤ v) (h1 : v < 1000) (_hlen : d.length = 12)
    (hhex : ∀ c ∈ d, isHexChar c = true) :
    ∃ bs, encode_upyt_id v d = some bs ∧ decode_upyt_id bs = some (v, d) := by
  have hhex2 : ∀ c ∈ d, 48 ≤ c.toNat ∧ c.toNat ≤ 102 := by
    intro c hc
    have := hhex c hc
    unfold isHexChar at this
    simp only [decide_eq_true_eq] at this
    rcases this with h | h | h <;> omega
  -- the formatted version field
  have hfmt : pyFormat03d v =
      List.replicate (3 - (pyNatChars v.natAbs).length) '0' ++ pyNatChars v.natAbs := by
    unfold pyFormat03d
    rw [if_neg (by omega)]
    simp
  obtain ⟨ds, hmap, hlt, hne, hval⟩ := pyNatChars_spec v.natAbs
  have hfmtchars : ∀ c ∈ pyFormat03d v, 48 ≤ c.toNat ∧ c.toNat ≤ 57 := by
    intro c hc
    rw [hfmt] at hc
    rcases List.mem_append.1 hc with hc | hc
    · have := List.eq_of_mem_replicate hc
      subst this
      decide
    · rw [hmap] at hc
      obtain ⟨dd, hdd, rfl⟩ := List.mem_map.1 hc
      have := digitChar_toNat (hlt dd hdd)
      have := hlt dd hdd
      omega
  have hallascii : ∀ c ∈ pyFormat03d v ++ ' ' :: d, c.toNat < 128 := by
    intro c hc
    rcases List.mem_append.1 hc with hc | hc
    · have := hfmtchars c hc
      omega
    · rcases List.mem_cons.1 hc with rfl | hc
      · decide
      · have := hhex2 c hc
        omega
  refine ⟨(pyFormat03d v ++ ' ' :: d).map Char.toNat, ?_, ?_⟩
  · exact encodeAscii_of_lt _ hallascii
  · unfold decode_upyt_id
    rw [decodeAscii_map_toNat _ hallascii, Option.some_bind]
    rw [pySplitSpace_append _ _ (fun c hc => by
      have := hfmtchars c hc
      intro he
      rw [he] at this
      simp at this)]
    rw [pySplitSpace_nospace d (fun c hc => by
      have := hhex2 c hc
      intro he
      rw [he] at this
      simp at this)]
    rw [decodeFields, hfmt, pyInt_pad_pyNatChars]
    simp [Int.natAbs_of_nonneg h0]

/-- Witness for `upyt_id_roundtrip` at `version = 7`,
`device_id = "0123456789Ab"`. -/
theorem upyt_id_roundtrip_witness :
    ∃ bs, encode_upyt_id 7 "0123456789Ab".toList = some bs ∧
      decode_upyt_id bs = some (7, "0123456789Ab".toList) :=
  upyt_id_roundtrip 7 "0123456789Ab".toList (by decide) (by decide) (by decide)
    (by decide)

/-- C5 counterexample: `decode_upyt_id` accepts the out-of-range,
four-digit-version content `b"1000 123456789abc"` instead of raising
`ValueError`, so it does not reject every input outside the strict
three-decimal-digits/space/twelve-hex format. -/
theorem decode_upyt_id_accepts_bad_version :
    decode_upyt_id (("1000 123456789abc".toList).map Char.toNat) =
      some (1000, "123456789abc".toList) := by decide

/-- C5 (amended): `decode_upyt_id` raises `ValueError` exactly when the content
is not pure ASCII, does not contain exactly one space byte, or the field before
the space is not a valid Python integer literal.  In particular it does not
validate the version range or the device-id format. -/
theorem decode_upyt_id_rejects_iff (bs : List Nat) :
    decode_upyt_id bs = none ↔
      ¬ (∀ b ∈ bs, b < 128) ∨ bs.count 32 ≠ 1 ∨
        pyInt? ((bs.takeWhile (· ≠ 32)).map Char.ofNat) = none := by
  by_cases hascii : ∀ b ∈ bs, b < 128
  · have hdec : decodeAscii bs = some (bs.map Char.ofNat) := by
      unfold decodeAscii
      rw [if_pos (by simpa using hascii)]
    unfold decode_upyt_id
    rw [hdec, Option.some_bind]
    obtain ⟨t, ht⟩ := pySplitSpace_head (bs.map Char.ofNat)
    have hlen := pySplitSpace_length (bs.map Char.ofNat)
    rw [ht] at hlen
    simp only [List.length_cons] at hlen
    rw [count32_map_ofNat bs hascii] at hlen
    rw [takeWhile_map_ofNat bs hascii] at ht
    by_cases hcount : bs.count 32 = 1
    · rw [hcount] at hlen
      cases t with
      | nil => simp at hlen
      | cons d2 t2 =>
        cases t2 with
        | cons x xs => simp at hlen
        | nil =>
          rw [ht, decodeFields]
          constructor
          · intro h
            exact Or.inr (Or.inr (Option.map_eq_none.1 h))
          · intro h
            rcases h with h | h | h
            · exact absurd hascii h
            · exact absurd hcount h
            · rw [h]
              rfl
    · have h2 : ¬ t.length = 1 := by omega
      cases t with
      | nil =>
        rw [ht,
          show decodeFields [(bs.takeWhile (· ≠ 32)).map Char.ofNat] = none from rfl]
        simp [hcount]
      | cons d2 t2 =>
        cases t2 with
        | nil => simp at h2
        | cons x xs =>
          rw [ht, show decodeFields
              ((bs.takeWhile (· ≠ 32)).map Char.ofNat :: d2 :: x :: xs) = none
            from rfl]
          simp [hcount]
  · unfold decode_upyt_id
    have hdec : decodeAscii bs = none := by
      unfold decodeAscii
      rw [if_neg (by simpa using hascii)]
    rw [hdec]
    simp [hascii]


theorem pyJoinNl_append (xs ys : List (List Char)) (hx : xs ≠ []) (hy : ys ≠ []) :
    pyJoinNl (xs ++ ys) = pyJoinNl xs ++ '\n' :: pyJoinNl ys := by
  induction xs with
  | nil => exact absurd rfl hx
  | cons x xs ih =>
    cases xs with
    | nil =>
      cases ys with
      | nil => exact absurd rfl hy
      | cons y ys => simp [pyJoinNl]
    | cons x2 xs2 =>
      rw [List.cons_append, List.cons_append]
      rw [show pyJoinNl (x :: x2 :: (xs2 ++ ys)) =
        x ++ '\n' :: pyJoinNl (x2 :: (xs2 ++ ys)) from rfl]
      rw [show pyJoinNl (x :: x2 :: xs2) = x ++ '\n' :: pyJoinNl (x2 :: xs2) from rfl]
      rw [show pyJoinNl (x2 :: (xs2 ++ ys)) = pyJoinNl ((x2 :: xs2) ++ ys) from rfl]
      rw [ih (by simp)]
      simp

theorem pyJoinNl_map_flatten (groups : List (List (List Char)))
    (h : ∀ g ∈ groups, g ≠ []) :
    pyJoinNl (groups.map pyJoinNl) = pyJoinNl groups.flatten := by
  induction groups with
  | nil => rfl
  | cons g gs ih =>
    cases gs with
    | nil => simp [pyJoinNl]
    | cons g2 gs2 =>
      rw [List.map_cons,
        show pyJoinNl (pyJoinNl g :: (g2 :: gs2).map pyJoinNl) =
          pyJoinNl g ++ '\n' :: pyJoinNl ((g2 :: gs2).map pyJoinNl) from rfl]
      rw [ih (fun x hx => h x (by simp [hx]))]
      have hne : (g2 :: gs2).flatten ≠ [] := by
        have hg2 : g2 ≠ [] := h g2 (by simp)
        rw [List.flatten_cons]
        cases hj : g2 ++ gs2.flatten with
        | nil =>
          rw [List.append_eq_nil] at hj
          exact absurd hj.1 hg2
        | cons a b => simp
      rw [show (g :: g2 :: gs2).flatten = g ++ (g2 :: gs2).flatten from rfl,
        pyJoinNl_append g (g2 :: gs2).flatten (h g (by simp)) hne]

theorem batchCommandsGo_spec (bpb cpb : Nat) (hcpb : 1 ≤ cpb)
    (input : List (List Char × Nat)) (tb : List (List Char)) (tbb : Nat)
    (hnb : ∀ p ∈ input, 1 ≤ p.2 ∧ p.2 ≤ bpb)
    (htb1 : tb.length ≤ cpb) (htb2 : tbb ≤ bpb)
    (htb3 : tb = [] ↔ tbb = 0) :
    (∀ b ∈ batchCommandsGo bpb cpb tb tbb input,
        b.1 ≠ [] ∧ b.1.length ≤ cpb ∧ b.2 ≤ bpb) ∧
      ((batchCommandsGo bpb cpb tb tbb input).map Prod.fst).flatten =
        tb ++ input.map Prod.fst := by
  induction input generalizing tb tbb with
  | nil =>
    rw [batchCommandsGo]
    by_cases h0 : tbb > 0
    · rw [if_pos h0]
      refine ⟨?_, by simp⟩
      intro b hb
      rw [List.mem_singleton] at hb
      subst hb
      refine ⟨?_, htb1, htb2⟩
      intro he
      have := htb3.1 he
      omega
    · rw [if_neg h0]
      have h1 : tbb = 0 := by omega
      have h2 : tb = [] := htb3.2 h1
      simp [h2]
  | cons p rest ih =>
    obtain ⟨command, numBytes⟩ := p
    obtain ⟨hp1, hp2⟩ := hnb (command, numBytes) (by simp)
    rw [batchCommandsGo]
    by_cases hflush : tbb + numBytes > bpb ∨ tb.length + 1 > cpb
    · rw [if_pos hflush]
      have htbne : tb ≠ [] := by
        intro he
        have h0 : tbb = 0 := htb3.1 he
        rcases hflush with h | h
        · omega
        · rw [he] at h
          simp at h
          omega
      have ihr := ih [command] numBytes (fun q hq => hnb q (by simp [hq]))
        (by simpa using hcpb) hp2
        (Iff.intro (fun h => by simp at h) (fun h => by exfalso; omega))
      refine ⟨?_, ?_⟩
      · intro b hb
        rcases List.mem_cons.1 hb with rfl | hb
        · exact ⟨htbne, htb1, htb2⟩
        · exact ihr.1 b hb
      · rw [List.map_cons, List.flatten_cons, ihr.2]
        simp
    · rw [if_neg hflush]
      push_neg at hflush
      have ihr := ih (tb ++ [command]) (tbb + numBytes)
        (fun q hq => hnb q (by simp [hq]))
        (by simpa using hflush.2) hflush.1
        (Iff.intro (fun h => by simp at h) (fun h => by exfalso; omega))
      refine ⟨ihr.1, ?_⟩
      rw [ihr.2]
      simp

/-- C3 counterexample: with a single command touching more bytes than
`bytes_per_batch`, `batch_commands` first yields an empty batch and then a
batch of 600 bytes, exceeding the 512-byte budget; joining the emitted batch
strings with `"\n"` gives `"\nc"`, not the input concatenation `"c"`. -/
theorem batch_commands_counterexample :
    batch_commands [(['c'], 600)] 512 20 = [([], 0), ([['c']], 600)] ∧
      ¬ (∀ b ∈ batch_commands [(['c'], 600)] 512 20, b.2 ≤ 512) ∧
      pyJoinNl ((batch_commands [(['c'], 600)] 512 20).map
          (fun b => pyJoinNl b.1)) ≠
        pyJoinNl ([(['c'], 600)].map Prod.fst) := by
  decide

/-- C3 (amended): provided `commands_per_batch ≥ 1` and every command touches
between 1 and `bytes_per_batch` bytes, every batch emitted by `batch_commands`
has at most `commands_per_batch` commands and at most `bytes_per_batch` bytes,
and the batch strings joined with `"\n"` equal the input command strings joined
with `"\n"`. -/
theorem batch_commands_amended (input : List (List Char × Nat))
    (bytesPerBatch commandsPerBatch : Nat)
    (hcpb : 1 ≤ commandsPerBatch)
    (hnb : ∀ p ∈ input, 1 ≤ p.2 ∧ p.2 ≤ bytesPerBatch) :
    (∀ b ∈ batch_commands input bytesPerBatch commandsPerBatch,
        b.1.length ≤ commandsPerBatch ∧ b.2 ≤ bytesPerBatch) ∧
      pyJoinNl ((batch_commands input bytesPerBatch commandsPerBatch).map
          (fun b => pyJoinNl b.1)) =
        pyJoinNl (input.map Prod.fst) := by
  have hspec := batchCommandsGo_spec bytesPerBatch commandsPerBatch hcpb input
    [] 0 hnb (by simp [hcpb]) (by simp) (by simp)
  unfold batch_commands
  refine ⟨fun b hb => ⟨(hspec.1 b hb).2.1, (hspec.1 b hb).2.2⟩, ?_⟩
  have hmm : (batchCommandsGo bytesPerBatch commandsPerBatch [] 0 input).map
      (fun b => pyJoinNl b.1) =
      ((batchCommandsGo bytesPerBatch commandsPerBatch [] 0 input).map
        Prod.fst).map pyJoinNl := by
    rw [List.map_map]
    rfl
  rw [hmm, pyJoinNl_map_flatten _ (fun g hg => by
    obtain ⟨b, hb, rfl⟩ := List.mem_map.1 hg
    exact (hspec.1 b hb).1), hspec.2]
  simp

/-- Witness for `batch_commands_amended` on a concrete two-command stream with
`bytes_per_batch = 2`, `commands_per_batch = 1`. -/
theorem batch_commands_amended_witness :
    (∀ b ∈ batch_commands [([' '], 1), (['b'], 2)] 2 1, b.1.length ≤ 1 ∧ b.2 ≤ 2) ∧
      pyJoinNl ((batch_commands [([' '], 1), (['b'], 2)] 2 1).map
          (fun b => pyJoinNl b.1)) =
        pyJoinNl ([([' '], 1), (['b'], 2)].map Prod.fst) :=
  batch_commands_amended [([' '], 1), (['b'], 2)] 2 1 (by decide) (by decide)


/-- C7 counterexample: with `equal_overhead = 2`, `seek_overhead = 0` and the
read cursor already at `i1` (so no seek would be needed), an equal span of
exactly 2 bytes -- whose cost equals the cost of extending the pending insert
-- is absorbed into the insert (its bytes transferred as literals) instead of
being emitted as an `Equal` operation. -/
theorem combine_tie_counterexample :
    combine_sm_operations [⟨.insert, 0, 0, 0, 3⟩, ⟨.equal, 0, 2, 3, 5⟩] 2 0 =
      [.ins 0 5] := by
  decide

/-- C7 (amended): after a pending insert covering `new[0:n]`, an equal span of
`k` bytes at `old[i1:i1+k]` is emitted as an `Equal` operation exactly when
`k` is strictly greater than `equal_overhead` (plus `seek_overhead` when the
read cursor, here 0, differs from `i1`); at exact equality of costs the span
is absorbed into the insert. -/
theorem combine_equal_threshold (eo so n k i1 : Nat) :
    combine_sm_operations
        [⟨.insert, 0, 0, 0, n⟩, ⟨.equal, i1, i1 + k, n, n + k⟩] eo so =
      if k ≤ eo + (if (0 : Nat) ≠ i1 then so else 0) then [.ins 0 (n + k)]
      else [.ins 0 n, .eq i1 (i1 + k)] := by
  unfold combine_sm_operations
  rw [combineGo]
  simp only []
  rw [combineGo]
  simp only []
  have hk : i1 + k - i1 = k := by omega
  rw [hk]
  by_cases hc : k ≤ eo + (if (0 : Nat) ≠ i1 then so else 0)
  · rw [if_pos hc, if_pos hc, combineGo, if_pos rfl]
  · rw [if_neg hc, if_neg hc]
    rw [combineGo]
    simp


theorem codeBytesIn_append (a b : List RPEvent) :
    codeBytesIn (a ++ b) = codeBytesIn a + codeBytesIn b := by
  simp [codeBytesIn]

theorem grantsIn_append (a b : List RPEvent) :
    grantsIn (a ++ b) = grantsIn a + grantsIn b := by
  simp [grantsIn, List.countP_append]

theorem codeBytesIn_cons (e : RPEvent) (l : List RPEvent) :
    codeBytesIn (e :: l) = evCodeBytes e + codeBytesIn l := by
  simp [codeBytesIn]

theorem grantsIn_cons (e : RPEvent) (l : List RPEvent) :
    grantsIn (e :: l) = (if evIsGrant e then 1 else 0) + grantsIn l := by
  simp [grantsIn, List.countP_cons]
  omega

/-- Branch unfolding: loop condition false (all code sent, window open). -/
theorem sendLoop_done (winc : Nat) (code : List Nat) (window : Nat)
    (device : List Nat) (h : code = [] ∧ window ≠ 0) :
    sendLoop winc code window device = ([], code, device, .done) := by
  rw [sendLoop.eq_def, dif_pos h]

/-- Branch unfolding: read timeout while waiting for a window grant. -/
theorem sendLoop_timeout (winc : Nat) (code : List Nat) :
    sendLoop winc code 0 [] = ([.readBytes []], code, [], .protoErr) := by
  rw [sendLoop.eq_def, dif_neg (by simp), dif_pos rfl]

/-- Branch unfolding: a 0x01 window grant. -/
theorem sendLoop_grant (winc : Nat) (code : List Nat) (device2 : List Nat) :
    sendLoop winc code 0 (1 :: device2) =
      (RPEvent.readBytes [1] :: RPEvent.wroteCode (min winc code.length) ::
          (sendLoop winc (code.drop (min winc code.length))
            (winc - min winc code.length) device2).1,
        (sendLoop winc (code.drop (min winc code.length))
          (winc - min winc code.length) device2).2) := by
  rw [sendLoop.eq_def, dif_neg (by simp), dif_pos rfl]
  rfl

/-- Branch unfolding: the device sends 0x04 and refuses further input. -/
theorem sendLoop_refuse (winc : Nat) (code : List Nat) (device2 : List Nat) :
    sendLoop winc code 0 (4 :: device2) =
      ([.readBytes [4]], code, device2, .deviceDone) := by
  rw [sendLoop.eq_def, dif_neg (by simp), dif_pos rfl]
  rfl

/-- Branch unfolding: an unexpected flow-control byte. -/
theorem sendLoop_badbyte (winc : Nat) (code : List Nat) (b : Nat)
    (device2 : List Nat) (hb1 : ¬b = 1) (hb4 : ¬b = 4) :
    sendLoop winc code 0 (b :: device2) =
      ([.readBytes [b]], code, device2, .protoErr) := by
  rw [sendLoop.eq_def, dif_neg (by simp), dif_pos rfl]
  simp [hb1, hb4]

/-- Branch unfolding: the window is open and code remains, so a chunk is
written. -/
theorem sendLoop_write (winc : Nat) (code : List Nat) (window : Nat)
    (device : List Nat) (hw : ¬window = 0) (hc : ¬code = []) :
    sendLoop winc code window device =
      (RPEvent.wroteCode (min window code.length) ::
          (sendLoop winc (code.drop (min window code.length))
            (window - min window code.length) device).1,
        (sendLoop winc (code.drop (min window code.length))
          (window - min window code.length) device).2) := by
  rw [sendLoop.eq_def, dif_neg (by simp [hc]), dif_neg hw]

/-- The flow-control invariant of the send loop: over any prefix of its event
trace, the code bytes written never exceed the initial window plus one
window-increment per 0x01 grant read. -/
theorem sendLoop_take_bound (winc : Nat) (code0 : List Nat) (window0 : Nat)
    (device0 : List Nat) :
    ∀ k, codeBytesIn ((sendLoop winc code0 window0 device0).1.take k) ≤
      window0 + winc * grantsIn ((sendLoop winc code0 window0 device0).1.take k) := by
  induction code0, window0, device0 using sendLoop.induct winc with
  | case1 code window device h =>
    intro k
    rw [sendLoop_done winc code window device h]
    simp [codeBytesIn, grantsIn]
  | case2 code h =>
    intro k
    rw [sendLoop_timeout]
    match k with
    | 0 => simp [codeBytesIn, grantsIn]
    | (k + 1) => simp [codeBytesIn, grantsIn, evCodeBytes]
  | case3 code device2 written h ih =>
    intro k
    rw [sendLoop_grant]
    match k with
    | 0 => simp [codeBytesIn, grantsIn]
    | 1 => simp [codeBytesIn, grantsIn, evCodeBytes, evIsGrant]
    | (k + 2) =>
      rw [List.take_succ_cons, List.take_succ_cons, codeBytesIn_cons,
        codeBytesIn_cons, grantsIn_cons, grantsIn_cons]
      have hww : written ≤ winc := Nat.min_le_left _ _
      have iht := ih k
      have hwr : min winc code.length = written := rfl
      rw [hwr]
      simp only [evCodeBytes, evIsGrant]
      norm_num
      generalize grantsIn (List.take k (sendLoop winc
        (List.drop written code) (winc - written) device2).1) = g at iht ⊢
      generalize codeBytesIn (List.take k (sendLoop winc
        (List.drop written code) (winc - written) device2).1) = cb at iht ⊢
      have hmul : winc * (1 + g) = winc + winc * g := by ring
      rw [hmul]
      generalize winc * g = X at iht ⊢
      omega
  | case4 code device2 h h41 =>
    intro k
    rw [sendLoop_refuse]
    match k with
    | 0 => simp [codeBytesIn, grantsIn]
    | (k + 1) => simp [codeBytesIn, grantsIn, evCodeBytes]
  | case5 code b device2 hb1 hb4 h =>
    intro k
    rw [sendLoop_badbyte winc code b device2 hb1 hb4]
    match k with
    | 0 => simp [codeBytesIn, grantsIn]
    | (k + 1) => simp [codeBytesIn, grantsIn, evCodeBytes]
  | case6 code window device h hw written ih =>
    intro k
    have hc : ¬code = [] := fun he => h ⟨he, hw⟩
    rw [sendLoop_write winc code window device hw hc]
    match k with
    | 0 => simp [codeBytesIn, grantsIn]
    | (k + 1) =>
      rw [List.take_succ_cons, codeBytesIn_cons, grantsIn_cons]
      have hww : written ≤ window := Nat.min_le_left _ _
      have iht := ih k
      have hwr : min window code.length = written := rfl
      rw [hwr]
      simp only [evCodeBytes, evIsGrant]
      norm_num
      generalize grantsIn (List.take k (sendLoop winc
        (List.drop written code) (window - written) device).1) = g at iht ⊢
      generalize codeBytesIn (List.take k (sendLoop winc
        (List.drop written code) (window - written) device).1) = cb at iht ⊢
      generalize winc * g = X at iht ⊢
      omega

/-- Every event of the send loop is a code write or a device read (never the
entry sequence or the terminating 0x04). -/
theorem sendLoop_events_kinds (winc : Nat) (code0 : List Nat) (window0 : Nat)
    (device0 : List Nat) :
    ∀ e ∈ (sendLoop winc code0 window0 device0).1,
      (∃ n, e = RPEvent.wroteCode n) ∨ (∃ bs, e = RPEvent.readBytes bs) := by
  induction code0, window0, device0 using sendLoop.induct winc with
  | case1 code window device h =>
    rw [sendLoop_done winc code window device h]
    simp
  | case2 code h =>
    rw [sendLoop_timeout]
    simp
  | case3 code device2 written h ih =>
    rw [sendLoop_grant]
    intro e he
    rcases List.mem_cons.1 he with rfl | he
    · exact Or.inr ⟨[1], rfl⟩
    rcases List.mem_cons.1 he with rfl | he
    · exact Or.inl ⟨_, rfl⟩
    · exact ih e he
  | case4 code device2 h h41 =>
    rw [sendLoop_refuse]
    simp
  | case5 code b device2 hb1 hb4 h =>
    rw [sendLoop_badbyte winc code b device2 hb1 hb4]
    simp
  | case6 code window device h hw written ih =>
    have hc : ¬code = [] := fun he => h ⟨he, hw⟩
    rw [sendLoop_write winc code window device hw hc]
    intro e he
    rcases List.mem_cons.1 he with rfl | he
    · exact Or.inl ⟨_, rfl⟩
    · exact ih e he

/-- Every event of the acknowledgement drain is a device read. -/
theorem drainLoop_events (device : List Nat) :
    ∀ e ∈ (drainLoop device).1, ∃ bs, e = RPEvent.readBytes bs := by
  induction device with
  | nil => simp [drainLoop]
  | cons b device2 ih =>
    rw [drainLoop]
    by_cases hb1 : b = 1
    · rw [if_pos hb1]
      intro e he
      rcases List.mem_cons.1 he with rfl | he
      · exact ⟨[1], rfl⟩
      · exact ih e he
    · rw [if_neg hb1]
      by_cases hb4 : b = 4
      · rw [if_pos hb4]
        simp
      · rw [if_neg hb4]
        simp

theorem codeBytesIn_eq_zero (l : List RPEvent)
    (h : ∀ e ∈ l, ∃ bs, e = RPEvent.readBytes bs) : codeBytesIn l = 0 := by
  induction l with
  | nil => rfl
  | cons e rest ih =>
    obtain ⟨bs, rfl⟩ := h e (by simp)
    rw [codeBytesIn_cons, ih (fun x hx => h x (by simp [hx]))]
    rfl

/-- Unfolding of `rawPasteExec` for a well-formed device response when the
code is free of 0x04. -/
theorem rawPasteExec_good (code : List Nat) (w0 w1 : Nat) (rest : List Nat)
    (hc : 4 ∉ code) :
    rawPasteExec code (82 :: 1 :: w0 :: w1 :: rest) =
      (rpHeader w0 w1 ++ (rawPasteAfterWindow (w0 + 256 * w1) code rest).1,
        (rawPasteAfterWindow (w0 + 256 * w1) code rest).2) := by
  rcases hX : rawPasteAfterWindow (w0 + 256 * w1) code rest with ⟨evs, outc⟩
  simp [rawPasteExec, hc, hX]

/-- Unfolding of `rawPasteExec` for a well-formed device response when the
code contains 0x04 (claim C10): only the entry sequence has been written and
only the mode response and window size have been read when the `ValueError`
is raised. -/
theorem rawPasteExec_eot (code : List Nat) (w0 w1 : Nat) (rest : List Nat)
    (hc : 4 ∈ code) :
    rawPasteExec code (82 :: 1 :: w0 :: w1 :: rest) =
      (rpHeader w0 w1, .valueError) := by
  simp [rawPasteExec, hc]

/-- If `x` occurs in neither `a` nor `b`, the decomposition of `a ++ x :: b`
around `x` is unique. -/
theorem middle_unique {α : Type} {x : α} :
    ∀ {a p b q : List α}, x ∉ a → x ∉ b → p ++ x :: q = a ++ x :: b →
      p = a ∧ q = b := by
  intro a
  induction a with
  | nil =>
    intro p b q ha hb h
    simp only [List.nil_append] at h
    cases p with
    | nil =>
      simp only [List.nil_append, List.cons.injEq] at h
      exact ⟨rfl, h.2⟩
    | cons y p2 =>
      rw [List.cons_append] at h
      injection h with h1 h2
      subst h1
      exact absurd (h2 ▸ List.mem_append_right p2 (List.mem_cons_self _ _)) hb
  | cons a0 a2 ih =>
    intro p b q ha hb h
    cases p with
    | nil =>
      simp only [List.nil_append, List.cons_append, List.cons.injEq] at h
      exact absurd (h.1 ▸ List.mem_cons_self a0 a2) ha
    | cons y p2 =>
      rw [List.cons_append, List.cons_append] at h
      injection h with h1 h2
      subst h1
      obtain ⟨hp, hq⟩ := ih (fun hm => ha (List.mem_cons_of_mem _ hm)) hb h2
      exact ⟨by rw [hp], hq⟩

/-- Prefixes of the raw-paste header write no code bytes and read no grants. -/
theorem rpHeader_take (w0 w1 : Nat) (k : Nat) :
    codeBytesIn ((rpHeader w0 w1).take k) = 0 ∧
      grantsIn ((rpHeader w0 w1).take k) = 0 := by
  match k with
  | 0 => simp [codeBytesIn, grantsIn]
  | 1 => simp [rpHeader, codeBytesIn, grantsIn, evCodeBytes, evIsGrant]
  | 2 => simp [rpHeader, codeBytesIn, grantsIn, evCodeBytes, evIsGrant]
  | (k + 3) => simp [rpHeader, codeBytesIn, grantsIn, evCodeBytes, evIsGrant]

/-- Prefixes of the post-0x04 tail (the terminator event plus the drain) write
no code bytes. -/
theorem eotTail_take_codeBytes (deviceRest : List Nat) (m : Nat) :
    codeBytesIn ((RPEvent.wroteEot :: (drainLoop deviceRest).1).take m) = 0 := by
  match m with
  | 0 => rfl
  | (m + 1) =>
    rw [List.take_succ_cons, codeBytesIn_cons]
    rw [codeBytesIn_eq_zero _ (fun e he =>
      drainLoop_events deviceRest e (List.take_subset _ _ he))]
    rfl

/-- Unfolding of `rawPasteAfterWindow` when the send loop raised. -/
theorem rawPasteAfterWindow_protoErr (winc : Nat) (code dev : List Nat)
    (sendEvs : List RPEvent) (remaining deviceRest : List Nat)
    (hsl : sendLoop winc code winc dev =
      (sendEvs, remaining, deviceRest, .protoErr)) :
    rawPasteAfterWindow winc code dev = (sendEvs, .protocolError) := by
  rw [rawPasteAfterWindow, hsl]
  rfl

/-- Unfolding of the event trace of `rawPasteAfterWindow` when the send loop
finished: the terminating 0x04 is written and the drain follows. -/
theorem rawPasteAfterWindow_sent (winc : Nat) (code dev : List Nat)
    (sendEvs : List RPEvent) (remaining deviceRest : List Nat) (sexit : SendExit)
    (hsl : sendLoop winc code winc dev =
      (sendEvs, remaining, deviceRest, sexit)) (hne : sexit ≠ .protoErr) :
    (rawPasteAfterWindow winc code dev).1 =
      sendEvs ++ RPEvent.wroteEot :: (drainLoop deviceRest).1 := by
  cases sexit with
  | protoErr => exact absurd rfl hne
  | done =>
    rw [rawPasteAfterWindow, hsl]
    rfl
  | deviceDone =>
    rw [rawPasteAfterWindow, hsl]
    rfl

/-- C2: the raw-paste flow-control never overruns the advertised window.  With
the device advertising the little-endian window size `W = w0 + 256 * w1`, over
every prefix `p` of the connection-event trace of `raw_paste_exec` the total
number of code bytes written is at most `W * (1 + number of 0x01 window-grant
bytes read in p)`, and no code byte is written after the terminating 0x04. -/
theorem raw_paste_window_invariant (code : List Nat) (w0 w1 : Nat)
    (rest : List Nat) :
    (∀ p q, (rawPasteExec code (82 :: 1 :: w0 :: w1 :: rest)).1 = p ++ q →
        codeBytesIn p ≤ (w0 + 256 * w1) * (1 + grantsIn p)) ∧
      (∀ p q, (rawPasteExec code (82 :: 1 :: w0 :: w1 :: rest)).1 =
          p ++ RPEvent.wroteEot :: q →
        ∀ e ∈ q, ∀ n, e ≠ RPEvent.wroteCode n) := by
  by_cases hc : 4 ∈ code
  · simp only [rawPasteExec_eot code w0 w1 rest hc]
    constructor
    · intro p q h
      have htotal : codeBytesIn (rpHeader w0 w1) =
          codeBytesIn p + codeBytesIn q := by
        rw [h, codeBytesIn_append]
      have hz : codeBytesIn (rpHeader w0 w1) = 0 := (rpHeader_take w0 w1 3).1
      omega
    · intro p q h
      have : RPEvent.wroteEot ∈ rpHeader w0 w1 := by
        rw [h]
        exact List.mem_append_right p (List.mem_cons_self _ _)
      simp [rpHeader] at this
  · simp only [rawPasteExec_good code w0 w1 rest hc]
    rcases hsl : sendLoop (w0 + 256 * w1) code (w0 + 256 * w1) rest with
      ⟨sendEvs, remaining, deviceRest, sexit⟩
    have hsend_take : ∀ m, codeBytesIn (sendEvs.take m) ≤
        (w0 + 256 * w1) + (w0 + 256 * w1) * grantsIn (sendEvs.take m) := by
      intro m
      have := sendLoop_take_bound (w0 + 256 * w1) code (w0 + 256 * w1) rest m
      rw [hsl] at this
      exact this
    have hsend_kinds : ∀ e ∈ sendEvs,
        (∃ n, e = RPEvent.wroteCode n) ∨ (∃ bs, e = RPEvent.readBytes bs) := by
      intro e he
      have := sendLoop_events_kinds (w0 + 256 * w1) code (w0 + 256 * w1) rest e
      rw [hsl] at this
      exact this he
    have hsend_noeot : RPEvent.wroteEot ∉ sendEvs := by
      intro hm
      rcases hsend_kinds _ hm with ⟨n, h⟩ | ⟨bs, h⟩ <;> simp at h
    -- key prefix bound for a trace of the form header ++ sendEvs ++ tail,
    -- where the tail writes no code bytes
    have main_take : ∀ (tail : List RPEvent),
        (∀ m, codeBytesIn (tail.take m) = 0) →
        ∀ k, codeBytesIn ((rpHeader w0 w1 ++ sendEvs ++ tail).take k) ≤
          (w0 + 256 * w1) *
            (1 + grantsIn ((rpHeader w0 w1 ++ sendEvs ++ tail).take k)) := by
      intro tail htail k
      rw [List.append_assoc, List.take_append_eq_append_take,
        List.take_append_eq_append_take, codeBytesIn_append, codeBytesIn_append,
        grantsIn_append, grantsIn_append]
      rw [(rpHeader_take w0 w1 k).1, (rpHeader_take w0 w1 k).2,
        htail (k - (rpHeader w0 w1).length - sendEvs.length)]
      have h1 := hsend_take (k - (rpHeader w0 w1).length)
      generalize hg : grantsIn (sendEvs.take (k - (rpHeader w0 w1).length)) = g
        at h1 ⊢
      generalize grantsIn ((tail.take
        (k - (rpHeader w0 w1).length - sendEvs.length))) = gt
      have h2 : (w0 + 256 * w1) * (1 + (0 + (g + gt))) =
          (w0 + 256 * w1) + ((w0 + 256 * w1) * g + (w0 + 256 * w1) * gt) := by
        ring
      rw [h2]
      generalize (w0 + 256 * w1) * g = X at h1 ⊢
      generalize (w0 + 256 * w1) * gt = Y
      omega
    by_cases hpe : sexit = SendExit.protoErr
    · subst hpe
      have hAW : rawPasteAfterWindow (w0 + 256 * w1) code rest =
          (sendEvs, .protocolError) :=
        rawPasteAfterWindow_protoErr _ _ _ _ _ _ hsl
      simp only [hAW]
      constructor
      · intro p q h
        have hk := main_take [] (fun m => by simp [codeBytesIn]) p.length
        rw [List.append_nil] at hk
        have hp : ((rpHeader w0 w1 ++ sendEvs)).take p.length = p := by
          have h2 : rpHeader w0 w1 ++ sendEvs = p ++ q := h
          rw [h2, List.take_left]
        rw [hp] at hk
        exact hk
      · intro p q h
        have : RPEvent.wroteEot ∈ rpHeader w0 w1 ++ sendEvs := by
          rw [h]
          exact List.mem_append_right p (List.mem_cons_self _ _)
        rcases List.mem_append.1 this with hm | hm
        · simp [rpHeader] at hm
        · exact absurd hm hsend_noeot
    · rcases hdl : drainLoop deviceRest with ⟨drainEvs, dRest, ok⟩
      have hAW : (rawPasteAfterWindow (w0 + 256 * w1) code rest).1 =
          sendEvs ++ RPEvent.wroteEot :: drainEvs := by
        rw [rawPasteAfterWindow_sent _ _ _ _ _ _ _ hsl hpe, hdl]
      simp only [hAW]
      have hdrain_reads : ∀ e ∈ drainEvs, ∃ bs, e = RPEvent.readBytes bs := by
        intro e he
        have := drainLoop_events deviceRest e
        rw [hdl] at this
        exact this he
      constructor
      · intro p q h
        have htails : ∀ m, codeBytesIn ((RPEvent.wroteEot :: drainEvs).take m)
            = 0 := by
          intro m
          have := eotTail_take_codeBytes deviceRest m
          rw [hdl] at this
          exact this
        have hk := main_take (RPEvent.wroteEot :: drainEvs) htails p.length
        have hp : (rpHeader w0 w1 ++ (sendEvs ++ RPEvent.wroteEot :: drainEvs)).take
            p.length = p := by
          rw [← List.append_assoc]
          have h2 : rpHeader w0 w1 ++ sendEvs ++ RPEvent.wroteEot :: drainEvs
              = p ++ q := by
            rw [List.append_assoc]
            exact h
          rw [h2, List.take_left]
        rw [← List.append_assoc] at hp
        rw [hp] at hk
        exact hk
      · intro p q h
        rw [← List.append_assoc] at h
        have hnoeot_a : RPEvent.wroteEot ∉ rpHeader w0 w1 ++ sendEvs := by
          intro hm
          rcases List.mem_append.1 hm with hm | hm
          · simp [rpHeader] at hm
          · exact absurd hm hsend_noeot
        have hnoeot_b : RPEvent.wroteEot ∉ drainEvs := by
          intro hm
          obtain ⟨bs, hbs⟩ := hdrain_reads _ hm
          simp at hbs
        obtain ⟨hp, rfl⟩ := middle_unique hnoeot_a hnoeot_b h.symm
        intro e he n
        obtain ⟨bs, rfl⟩ := hdrain_reads e he
        simp

/-- Witness for `raw_paste_window_invariant`: a concrete prefix of the trace
for `code = [10, 20, 30]` with window size 2. -/
theorem raw_paste_window_invariant_witness :
    codeBytesIn [RPEvent.wroteEnter, RPEvent.readBytes [82, 1],
        RPEvent.readBytes [2, 0], RPEvent.wroteCode 2] ≤
      (2 + 256 * 0) *
        (1 + grantsIn [RPEvent.wroteEnter, RPEvent.readBytes [82, 1],
          RPEvent.readBytes [2, 0], RPEvent.wroteCode 2]) :=
  (raw_paste_window_invariant [10, 20, 30] 2 0 [1, 4]).1
    [RPEvent.wroteEnter, RPEvent.readBytes [82, 1], RPEvent.readBytes [2, 0],
      RPEvent.wroteCode 2]
    [RPEvent.readBytes [1], RPEvent.wroteCode 1, RPEvent.wroteEot,
      RPEvent.readBytes [4]]
    (by simp [rawPasteExec, rpHeader, rawPasteAfterWindow, sendLoop_write,
      sendLoop_grant, sendLoop_done, drainLoop])

/-- C10: when the code contains a 0x04 byte and the device correctly enters
raw-paste mode, `raw_paste_exec` raises `ValueError` after having written the
entry sequence `0x05 'A' 0x01` and read the two-byte mode response and the
two-byte window size, and before writing any code byte or the terminating
0x04 -- leaving the device in raw-paste mode awaiting data. -/
theorem raw_paste_eot_value_error (code : List Nat) (w0 w1 : Nat)
    (rest : List Nat) (hc : 4 ∈ code) :
    rawPasteExec code (82 :: 1 :: w0 :: w1 :: rest) =
      ([RPEvent.wroteEnter, RPEvent.readBytes [82, 1],
        RPEvent.readBytes [w0, w1]], RPOutcome.valueError) :=
  rawPasteExec_eot code w0 w1 rest hc

/-- Witness for `raw_paste_eot_value_error` at `code = [4]`, window size 8. -/
theorem raw_paste_eot_value_error_witness :
    rawPasteExec [4] [82, 1, 8, 0] =
      ([RPEvent.wroteEnter, RPEvent.readBytes [82, 1],
        RPEvent.readBytes [8, 0]], RPOutcome.valueError) :=
  raw_paste_eot_value_error [4] 8 0 [] (by simp)

/-- C8 (divergence): on a ping frame the receiver sends a pong carrying the
same payload but then leaves the receive loop, so the payload of a text frame
arriving after the ping is never pushed into the pipe. -/
theorem recv_ping_stops_reception (p payload : List Nat) (fin1 fin2 : Bool)
    (rest : List WsFrame) :
    recvToPipe (⟨fin1, .ping, p⟩ :: ⟨fin2, .text, payload⟩ :: rest) =
      [.sendFrame ⟨true, .pong, p⟩] := rfl

/-- C9 (modelled from the spec): `get_type` always returns one of
{absent, file, dir} -- it is total, never an error -- and it returns `absent`
exactly for the paths whose device stat fails, i.e. that do not exist. -/
theorem get_type_total_absent {P : Type} (stat : P → Option Nat) (path : P) :
    (get_type stat path = .absent ∨ get_type stat path = .file ∨
        get_type stat path = .dir) ∧
      (get_type stat path = .absent ↔ stat path = none) := by
  unfold get_type
  cases hs : stat path with
  | none => simp
  | some mode =>
    by_cases hm : mode &&& 0x4000 ≠ 0
    · simp [hm]
    · simp [hm]

/-- In a list of the form `evs2 ++ suffix` where no event of `evs2` is a tree
operation and `t ∈ evs2`, every tree operation comes after `t`. -/
theorem tree_after_token {t : SyncEv} {full evs2 suffix : List SyncEv}
    (h : full = evs2 ++ suffix)
    (hnt : ∀ e ∈ evs2, e.isTreeOp = false) (htok : t ∈ evs2) :
    ∀ a e b, full = a ++ e :: b → e.isTreeOp = true → t ∈ a := by
  intro a e b hdec htree
  rw [h] at hdec
  rcases List.append_eq_append_iff.1 hdec.symm with ⟨a2, ha2, hb2⟩ | ⟨c2, hc2, _⟩
  · cases a2 with
    | nil =>
      rw [List.append_nil] at ha2
      rw [← ha2]
      exact htok
    | cons x a3 =>
      rw [List.cons_append] at hb2
      injection hb2 with hx _
      have : e ∈ evs2 := by
        rw [ha2, hx]
        exact List.mem_append_right a (List.mem_cons_self _ _)
      rw [hnt e this] at htree
      exact absurd htree (by simp)
  · rw [hc2]
    exact List.mem_append_left c2 htok

theorem getUpytId_events (dt : Option (List Nat)) (f : List Char)
    (o : List DevResp) :
    ∀ e ∈ (getUpytId dt f o).1,
      e = SyncEv.devReadToken ∨ e = SyncEv.devMkdirRoot ∨
        e = SyncEv.devWriteToken 0 := by
  have hgen : ∀ e ∈ (genUpytId f o).1,
      e = SyncEv.devReadToken ∨ e = SyncEv.devMkdirRoot ∨
        e = SyncEv.devWriteToken 0 := by
    unfold genUpytId
    by_cases h1 : (devCall o).1 ≠ DevResp.ok
    · simp [h1]
    · by_cases h2 : (devCall (devCall o).2).1 ≠ DevResp.ok
      · simp [h1, h2]
      · simp [h1, h2]
  unfold getUpytId
  cases hb : dt.bind decode_upyt_id with
  | none => exact hgen
  | some vd => simp

theorem getUpytId_version (dt : Option (List Nat)) (f : List Char)
    (o : List DevResp) (v : Int) (did : List Char)
    (h : (getUpytId dt f o).2.2 = some (v, did)) :
    v = (match dt.bind decode_upyt_id with
      | some (v0, _) => v0
      | none => (0 : Int)) := by
  have hgen : ∀ (hg : (genUpytId f o).2.2 = some (v, did)), v = 0 := by
    intro hg
    unfold genUpytId at hg
    by_cases h1 : (devCall o).1 ≠ DevResp.ok
    · simp [h1] at hg
    · by_cases h2 : (devCall (devCall o).2).1 ≠ DevResp.ok
      · simp [h1, h2] at hg
      · simp [h1, h2] at hg
        exact hg.1.symm
  unfold getUpytId at h
  cases hb : dt.bind decode_upyt_id with
  | none =>
    rw [hb] at h
    exact hgen h
  | some vd =>
    obtain ⟨v0, did0⟩ := vd
    rw [hb] at h
    simp at h
    simp [h.1]

theorem syncRemoveStep_evs (kind : PathType) (p : Nat)
    (oracle : List DevResp) :
    (syncRemoveStep kind p oracle).1 =
        [SyncEv.devGetType p, SyncEv.devRemove p] ∨
      (syncRemoveStep kind p oracle).1 = [SyncEv.devGetType p] := by
  unfold syncRemoveStep
  by_cases h : respType (devCall oracle).1 = kind <;> simp [h]

theorem syncDirStep_noCWT (cache : List (Nat × FsEntry)) (p : Nat)
    (oracle : List DevResp) (w : Int) :
    SyncEv.cacheWriteToken w ∉ (syncDirStep cache p oracle).1 := by
  have hr := syncRemoveStep_evs PathType.file p oracle
  unfold syncDirStep
  by_cases hA : (syncRemoveStep PathType.file p oracle).2.2 = false <;>
    by_cases hB : (devCall (syncRemoveStep PathType.file p oracle).2.1).1 =
      DevResp.ok <;>
    by_cases hC : (lookupEntry cache p).elim false entryIsFile = true <;>
    rcases hr with hr | hr <;>
    simp [hA, hB, hC, hr]

theorem syncFileStep_noCWT (cache : List (Nat × FsEntry)) (p : Nat)
    (oracle : List DevResp) (w : Int) :
    SyncEv.cacheWriteToken w ∉ (syncFileStep cache p oracle).1 := by
  have hr := syncRemoveStep_evs PathType.dir p oracle
  unfold syncFileStep
  by_cases hA : (syncRemoveStep PathType.dir p oracle).2.2 = false <;>
    by_cases hC : (lookupEntry cache p).elim false entryIsFile = true <;>
    by_cases hD : (lookupEntry cache p).elim false
      (fun e => !entryIsFile e) = true <;>
    by_cases hB1 : (devCall (syncRemoveStep PathType.dir p oracle).2.1).1 =
      DevResp.ok <;>
    by_cases hB2 : (devCall
      (devCall (syncRemoveStep PathType.dir p oracle).2.1).2).1 =
        DevResp.ok <;>
    rcases hr with hr | hr <;>
    simp [hA, hB1, hB2, hC, hD, hr]

theorem syncDirsLoop_noCWT (host cache : List (Nat × FsEntry)) :
    ∀ (ps : List Nat) (oracle : List DevResp) (w : Int),
      SyncEv.cacheWriteToken w ∉ (syncDirsLoop host cache ps oracle).1 := by
  intro ps
  induction ps with
  | nil => simp [syncDirsLoop]
  | cons p rest ih =>
    intro oracle w
    rw [syncDirsLoop]
    by_cases hd : (lookupEntry host p).elim false (fun e => !entryIsFile e)
    · rw [if_pos hd]
      by_cases hok : (syncDirStep cache p oracle).2.2 = false
      · simpa [hok] using syncDirStep_noCWT cache p oracle w
      · simp only [hok, if_false]
        intro hm
        rcases List.mem_append.1 hm with hm | hm
        · exact absurd hm (syncDirStep_noCWT cache p oracle w)
        · exact absurd hm (ih _ w)
    · rw [if_neg hd]
      exact ih oracle w

theorem syncFilesLoop_noCWT (host cache : List (Nat × FsEntry)) :
    ∀ (ps : List Nat) (oracle : List DevResp) (w : Int),
      SyncEv.cacheWriteToken w ∉ (syncFilesLoop host cache ps oracle).1 := by
  intro ps
  induction ps with
  | nil => simp [syncFilesLoop]
  | cons p rest ih =>
    intro oracle w
    rw [syncFilesLoop]
    by_cases hd : (lookupEntry host p).elim true entryIsFile
    · rw [if_pos hd]
      by_cases hok : (syncFileStep cache p oracle).2.2 = false
      · simpa [hok] using syncFileStep_noCWT cache p oracle w
      · simp only [hok, if_false]
        intro hm
        rcases List.mem_append.1 hm with hm | hm
        · exact absurd hm (syncFileStep_noCWT cache p oracle w)
        · exact absurd hm (ih _ w)
    · rw [if_neg hd]
      exact ih oracle w

theorem pruneEvsOf_noCWT (inp : SyncInputs) (w : Int) :
    SyncEv.cacheWriteToken w ∉ pruneEvsOf inp := by
  unfold pruneEvsOf
  intro hm
  obtain ⟨p, _, hp⟩ := List.mem_map.1 hm
  simp at hp

/-- The body of the run (everything after the dirty-token write) commits the
cache token, with the incremented version, as its very last event and only on
success. -/
theorem syncBody_spec (inp : SyncInputs) (version : Int)
    (oracle : List DevResp) :
    ((syncBody inp version oracle).2 = true →
      ∃ body, (syncBody inp version oracle).1 =
          body ++ [SyncEv.cacheWriteToken (version + 1)] ∧
        ∀ w, SyncEv.cacheWriteToken w ∉ body) ∧
    ((syncBody inp version oracle).2 = false →
      ∀ w, SyncEv.cacheWriteToken w ∉ (syncBody inp version oracle).1) := by
  unfold syncBody
  by_cases hd : (syncDirsLoop inp.host inp.cache
      (sortPaths (toUpdatePaths inp version)) oracle).2.2 = false
  · rw [if_pos hd]
    refine ⟨by simp, ?_⟩
    intro _ w hm
    rcases List.mem_append.1 hm with hm | hm
    · exact absurd hm (pruneEvsOf_noCWT inp w)
    · exact absurd hm (syncDirsLoop_noCWT inp.host inp.cache _ _ w)
  · rw [if_neg hd]
    by_cases hf : (syncFilesLoop inp.host inp.cache
        (sortPaths (toUpdatePaths inp version))
        (syncDirsLoop inp.host inp.cache
          (sortPaths (toUpdatePaths inp version)) oracle).2.1).2.2 = false
    · rw [if_pos hf]
      refine ⟨by simp, ?_⟩
      intro _ w hm
      rcases List.mem_append.1 hm with hm | hm
      · rcases List.mem_append.1 hm with hm | hm
        · exact absurd hm (pruneEvsOf_noCWT inp w)
        · exact absurd hm (syncDirsLoop_noCWT inp.host inp.cache _ _ w)
      · exact absurd hm (syncFilesLoop_noCWT inp.host inp.cache _ _ w)
    · rw [if_neg hf]
      refine ⟨?_, by simp⟩
      intro _
      refine ⟨_, rfl, ?_⟩
      intro w hm
      rcases List.mem_append.1 hm with hm | hm
      · rcases List.mem_append.1 hm with hm | hm
        · exact absurd hm (pruneEvsOf_noCWT inp w)
        · exact absurd hm (syncDirsLoop_noCWT inp.host inp.cache _ _ w)
      · exact absurd hm (syncFilesLoop_noCWT inp.host inp.cache _ _ w)

/-- After the token version is known: the dirty device-token write
`version + 1` precedes every tree operation, and the cache token is written
(with the same incremented version) only as the final event of a successful
run. -/
theorem syncAfterId_spec (inp : SyncInputs) (version : Int)
    (evsPre : List SyncEv) (oracle : List DevResp)
    (hpre1 : ∀ e ∈ evsPre, e.isTreeOp = false)
    (hpre2 : ∀ w : Int, SyncEv.cacheWriteToken w ∉ evsPre) :
    (∀ a e b, (syncAfterId inp version evsPre oracle).1 = a ++ e :: b →
        e.isTreeOp = true → SyncEv.devWriteToken (version + 1) ∈ a) ∧
      ((syncAfterId inp version evsPre oracle).2 = true →
        ∃ body, (syncAfterId inp version evsPre oracle).1 =
            body ++ [SyncEv.cacheWriteToken (version + 1)] ∧
          ∀ w, SyncEv.cacheWriteToken w ∉ body) ∧
      ((syncAfterId inp version evsPre oracle).2 = false →
        ∀ w, SyncEv.cacheWriteToken w ∉ (syncAfterId inp version evsPre
          oracle).1) := by
  have hpre1b : ∀ e ∈ evsPre ++ [SyncEv.devWriteToken (version + 1)],
      e.isTreeOp = false := by
    intro e he
    rcases List.mem_append.1 he with he | he
    · exact hpre1 e he
    · rw [List.mem_singleton] at he
      subst he
      rfl
  have htok : SyncEv.devWriteToken (version + 1) ∈
      evsPre ++ [SyncEv.devWriteToken (version + 1)] :=
    List.mem_append_right _ (List.mem_singleton.2 rfl)
  have hpre2b : ∀ w : Int, SyncEv.cacheWriteToken w ∉
      evsPre ++ [SyncEv.devWriteToken (version + 1)] := by
    intro w hm
    rcases List.mem_append.1 hm with hm | hm
    · exact absurd hm (hpre2 w)
    · simp at hm
  unfold syncAfterId
  by_cases hc : (devCall oracle).1 ≠ DevResp.ok
  · rw [if_pos hc]
    refine ⟨?_, by simp, ?_⟩
    · exact tree_after_token (List.append_nil _).symm hpre1b htok
    · intro _ w
      exact hpre2b w
  · rw [if_neg hc]
    obtain ⟨hb1, hb2⟩ := syncBody_spec inp version (devCall oracle).2
    refine ⟨?_, ?_, ?_⟩
    · exact tree_after_token rfl hpre1b htok
    · intro hok
      obtain ⟨body, hbody, hno⟩ := hb1 hok
      refine ⟨(evsPre ++ [SyncEv.devWriteToken (version + 1)]) ++ body,
        ?_, ?_⟩
      · rw [List.append_assoc, ← hbody]
      · intro w hm
        rcases List.mem_append.1 hm with hm | hm
        · exact absurd hm (hpre2b w)
        · exact absurd hm (hno w)
    · intro hfail w hm
      rcases List.mem_append.1 hm with hm | hm
      · exact absurd hm (hpre2b w)
      · exact absurd hm (hb2 hfail w)

/-- C6: in every run of `sync_to_device`, the device token is rewritten with
the version incremented by one before any directory creation, removal, file
update or file write for the synchronised tree; the cache token is written,
with that same incremented version, only as the very last event of a
successful run; and a run that fails (an uncaught error from a file
operation) never writes the cache token. -/
theorem sync_to_device_token_ordering (inp : SyncInputs)
    (oracle : List DevResp) :
    (∀ a e b, (sync_to_device inp oracle).1 = a ++ e :: b →
        e.isTreeOp = true →
        SyncEv.devWriteToken (initialVersion inp + 1) ∈ a) ∧
      ((sync_to_device inp oracle).2 = true →
        ∃ body, (sync_to_device inp oracle).1 =
            body ++ [SyncEv.cacheWriteToken (initialVersion inp + 1)] ∧
          ∀ w, SyncEv.cacheWriteToken w ∉ body) ∧
      ((sync_to_device inp oracle).2 = false →
        ∀ w, SyncEv.cacheWriteToken w ∉ (sync_to_device inp oracle).1) := by
  have hev := getUpytId_events inp.devToken inp.freshId oracle
  rcases hgi : getUpytId inp.devToken inp.freshId oracle with ⟨evs0, o0, idres⟩
  rw [hgi] at hev
  cases idres with
  | none =>
    have hres : sync_to_device inp oracle = (evs0, false) := by
      unfold sync_to_device
      rw [hgi]
    rw [hres]
    refine ⟨?_, by simp, ?_⟩
    · intro a e b hdec htree
      have hdec2 : evs0 = a ++ e :: b := hdec
      have hmem : e ∈ evs0 := by
        rw [hdec2]
        exact List.mem_append_right a (List.mem_cons_self _ _)
      rcases hev e hmem with rfl | rfl | rfl <;> simp [SyncEv.isTreeOp] at htree
    · intro _ w hm
      have hm2 : SyncEv.cacheWriteToken w ∈ evs0 := hm
      rcases hev _ hm2 with h | h | h <;> simp at h
  | some vd =>
    obtain ⟨version, did⟩ := vd
    have hver : version = initialVersion inp := by
      have := getUpytId_version inp.devToken inp.freshId oracle version did
        (by rw [hgi])
      rw [this]
      rfl
    have hres : sync_to_device inp oracle =
        syncAfterId inp version
          (evs0 ++ [SyncEv.cacheMkdirRoot, SyncEv.cacheReadToken]) o0 := by
      unfold sync_to_device
      rw [hgi]
    rw [hres, ← hver]
    apply syncAfterId_spec
    · intro e he
      rcases List.mem_append.1 he with he | he
      · rcases hev e he with rfl | rfl | rfl <;> rfl
      · rcases List.mem_cons.1 he with rfl | he
        · rfl
        · rw [List.mem_singleton] at he
          subst he
          rfl
    · intro w hm
      rcases List.mem_append.1 hm with hm | hm
      · rcases hev _ hm with h | h | h <;> simp at h
      · simp at hm

/-- Witness for `sync_to_device_token_ordering`: a successful run over a
one-file host tree with an empty device and cache. -/
theorem sync_to_device_token_ordering_witness :
    ∃ body,
      (sync_to_device
          ⟨none, ['a'], none, [(0, FsEntry.file [7])], [], false, false⟩
          [DevResp.ok, DevResp.ok, DevResp.ok, DevResp.typ PathType.absent,
            DevResp.ok]).1 =
        body ++ [SyncEv.cacheWriteToken
          (initialVersion
            ⟨none, ['a'], none, [(0, FsEntry.file [7])], [], false, false⟩ + 1)] ∧
      ∀ w, SyncEv.cacheWriteToken w ∉ body := by
  refine (sync_to_device_token_ordering
    ⟨none, ['a'], none, [(0, FsEntry.file [7])], [], false, false⟩
    [DevResp.ok, DevResp.ok, DevResp.ok, DevResp.typ PathType.absent,
      DevResp.ok]).2.1 ?_
  decide

theorem dropTake_append (l : List Nat) (m n p : Nat) (hmn : m ≤ n) (hnp : n ≤ p) :
    (l.drop m).take (n - m) ++ (l.drop n).take (p - n) = (l.drop m).take (p - m) := by
  have h1 : p - m = (n - m) + (p - n) := by omega
  rw [h1, List.take_add, List.drop_drop]
  have h2 : m + (n - m) = n := by omega
  rw [h2]

theorem segEq (a b : List Nat) (i j k : Nat) (ha : i + k ≤ a.length)
    (hb : j + k ≤ b.length)
    (hm : ∀ t < k, a.getD (i + t) 0 = b.getD (j + t) 0) :
    (a.drop i).take k = (b.drop j).take k := by
  apply List.ext_getElem
  · simp
    omega
  · intro t h1 h2
    simp only [List.getElem_take, List.getElem_drop]
    have ht : t < k := by
      simp at h1
      omega
    have hres := hm t ht
    rwa [List.getD_eq_getElem a 0 (by omega), List.getD_eq_getElem b 0 (by omega)]
      at hres

theorem mem_b2j {b : List Nat} {c j : Nat} (h : j ∈ b2j b c) :
    j < b.length ∧ b.getD j 0 = c := by
  by_cases hcut : 200 ≤ b.length ∧ b.length / 100 + 1 < (b2jAll b c).length
  · simp [b2j, hcut] at h
  · simp only [b2j, if_neg hcut] at h
    simp only [b2jAll, List.mem_filter, List.mem_range, decide_eq_true_eq] at h
    exact h

theorem hexCharVal_hexDigitChar {d : Nat} (hd : d < 16) :
    hexCharVal (hexDigitChar d) = some d := by
  interval_cases d <;> rfl

theorem unhexlify_hexlify (l : List Nat) (h : ∀ c ∈ l, c < 256) :
    unhexlify (hexlify l) = some l := by
  induction l with
  | nil => rfl
  | cons c t ih =>
    have hc : c < 256 := h c (List.mem_cons_self c t)
    have h16a : c / 16 < 16 := by omega
    have h16b : c % 16 < 16 := by omega
    have hx : hexlify (c :: t) =
        hexDigitChar (c / 16) :: hexDigitChar (c % 16) :: hexlify t := by
      simp [hexlify]
    rw [hx]
    have iht := ih (fun x hx2 => h x (List.mem_cons_of_mem _ hx2))
    simp only [unhexlify, hexCharVal_hexDigitChar h16a,
      hexCharVal_hexDigitChar h16b, iht]
    have : c / 16 * 16 + c % 16 = c := by omega
    simp [this]

theorem cand_best {a b : List Nat} {alo blo ahi bhi i j k : Nat}
    (hc : Cand a b alo blo i j k) (hia : i < ahi) (hjb : j < bhi) :
    BestOK a b alo blo ahi bhi (i + 1 - k, j + 1 - k, k) := by
  obtain ⟨h1, h2, h3⟩ := hc
  exact ⟨show alo ≤ i + 1 - k by omega, show blo ≤ j + 1 - k by omega,
    show i + 1 - k + k ≤ ahi by omega, show j + 1 - k + k ≤ bhi by omega,
    fun t ht => h3 t ht⟩

theorem flmInnerGo_ok {a b : List Nat} {alo blo ahi bhi i : Nat}
    (j2len : Nat → Nat)
    (hj2 : ∀ j, j2len j = 0 ∨ (Cand a b alo blo (i - 1) j (j2len j) ∧ 1 ≤ i))
    (hai : alo ≤ i) (hia : i < ahi) :
    ∀ js news best,
      (∀ j ∈ js, j < b.length ∧ b.getD j 0 = a.getD i 0) →
      (∀ j, news j = 0 ∨ Cand a b alo blo i j (news j)) →
      BestOK a b alo blo ahi bhi best →
      BestOK a b alo blo ahi bhi (flmInnerGo i blo bhi j2len js news best).2 ∧
        ∀ j, (flmInnerGo i blo bhi j2len js news best).1 j = 0 ∨
          Cand a b alo blo i j ((flmInnerGo i blo bhi j2len js news best).1 j) := by
  intro js
  induction js with
  | nil =>
    intro news best _ hnews hbest
    exact ⟨hbest, hnews⟩
  | cons j js ih =>
    intro news best hjs hnews hbest
    obtain ⟨hjlt, hjeq⟩ := hjs j (List.mem_cons_self j js)
    have hjs2 : ∀ x ∈ js, x < b.length ∧ b.getD x 0 = a.getD i 0 :=
      fun x hx => hjs x (List.mem_cons_of_mem _ hx)
    simp only [flmInnerGo]
    by_cases h1 : j < blo
    · rw [if_pos h1]
      exact ih news best hjs2 hnews hbest
    · rw [if_neg h1]
      by_cases h2 : bhi ≤ j
      · rw [if_pos h2]
        exact ⟨hbest, hnews⟩
      · rw [if_neg h2]
        have hcand : Cand a b alo blo i j ((if j = 0 then 0 else j2len (j - 1)) + 1) := by
          by_cases hj0 : j = 0
          · subst hj0
            rw [if_pos rfl]
            refine ⟨by omega, by omega, ?_⟩
            intro t ht
            have ht0 : t = 0 := by omega
            subst ht0
            have e1 : i + 1 - 1 + 0 = i := by omega
            have e2 : (0 : Nat) + 1 - 1 + 0 = 0 := by omega
            rw [e1, e2]
            exact hjeq.symm
          · rw [if_neg hj0]
            rcases hj2 (j - 1) with hz | ⟨⟨c1, c2, c3⟩, hi1⟩
            · rw [hz]
              refine ⟨by omega, by omega, ?_⟩
              intro t ht
              have ht0 : t = 0 := by omega
              subst ht0
              have e1 : i + 1 - (0 + 1) + 0 = i := by omega
              have e2 : j + 1 - (0 + 1) + 0 = j := by omega
              rw [e1, e2]
              exact hjeq.symm
            · refine ⟨by omega, by omega, ?_⟩
              intro t ht
              rcases (by omega : t < j2len (j - 1) ∨ t = j2len (j - 1)) with htp | rfl
              · have e1 : i + 1 - (j2len (j - 1) + 1) + t =
                    i - 1 + 1 - j2len (j - 1) + t := by omega
                have e2 : j + 1 - (j2len (j - 1) + 1) + t =
                    j - 1 + 1 - j2len (j - 1) + t := by omega
                rw [e1, e2]
                exact c3 t htp
              · have e1 : i + 1 - (j2len (j - 1) + 1) + j2len (j - 1) = i := by omega
                have e2 : j + 1 - (j2len (j - 1) + 1) + j2len (j - 1) = j := by omega
                rw [e1, e2]
                exact hjeq.symm
        refine ih _ _ hjs2 ?_ ?_
        · intro j2
          by_cases hj2e : j2 = j
          · subst hj2e
            rw [if_pos rfl]
            exact Or.inr hcand
          · rw [if_neg hj2e]
            exact hnews j2
        · by_cases hlt : best.2.2 < (if j = 0 then 0 else j2len (j - 1)) + 1
          · rw [if_pos hlt]
            exact cand_best hcand hia (by omega)
          · rw [if_neg hlt]
            exact hbest

theorem flmOuter_ok {a b : List Nat} {alo blo ahi bhi : Nat}
    (bjf : Nat → List Nat)
    (hbj : ∀ c j, j ∈ bjf c → j < b.length ∧ b.getD j 0 = c) :
    ∀ fuel i j2len best,
      alo ≤ i → i + fuel ≤ ahi →
      (∀ j, j2len j = 0 ∨ (Cand a b alo blo (i - 1) j (j2len j) ∧ 1 ≤ i)) →
      BestOK a b alo blo ahi bhi best →
      BestOK a b alo blo ahi bhi (flmOuter a bjf blo bhi i fuel j2len best) := by
  intro fuel
  induction fuel with
  | zero =>
    intro i j2len best _ _ _ hbest
    simpa [flmOuter] using hbest
  | succ n ih =>
    intro i j2len best hai hfuel hj2 hbest
    simp only [flmOuter]
    have hia : i < ahi := by omega
    have hmem : ∀ j ∈ bjf (a.getD i 0), j < b.length ∧ b.getD j 0 = a.getD i 0 :=
      fun j hj => hbj _ j hj
    obtain ⟨hb2, hn2⟩ := flmInnerGo_ok j2len hj2 hai hia (bjf (a.getD i 0))
      (fun _ => 0) best hmem (fun _ => Or.inl rfl) hbest
    refine ih (i + 1) _ _ (by omega) (by omega) ?_ hb2
    intro j
    rcases hn2 j with hz | hc
    · exact Or.inl hz
    · refine Or.inr ⟨?_, by omega⟩
      have e : i + 1 - 1 = i := by omega
      rw [e]
      exact hc

theorem flmExtLo_ok {a b : List Nat} {alo blo ahi bhi : Nat} :
    ∀ fuel m, BestOK a b alo blo ahi bhi m →
      BestOK a b alo blo ahi bhi (flmExtLo a b alo blo fuel m) := by
  intro fuel
  induction fuel with
  | zero =>
    intro m hm
    simpa [flmExtLo] using hm
  | succ n ih =>
    intro m hm
    simp only [flmExtLo]
    split_ifs with hg
    · obtain ⟨hg1, hg2, hg3⟩ := hg
      obtain ⟨h1, h2, h3, h4, h5⟩ := hm
      refine ih _ ⟨by simp; omega, by simp; omega, by simp; omega, by simp; omega, ?_⟩
      intro t ht
      simp only at ht ⊢
      cases t with
      | zero => simpa using hg3
      | succ s =>
        have hs : s < m.2.2 := by omega
        have e1 : m.1 - 1 + (s + 1) = m.1 + s := by omega
        have e2 : m.2.1 - 1 + (s + 1) = m.2.1 + s := by omega
        rw [e1, e2]
        exact h5 s hs
    · exact hm

theorem flmExtHi_ok {a b : List Nat} {alo blo ahi bhi : Nat} :
    ∀ fuel m, BestOK a b alo blo ahi bhi m →
      BestOK a b alo blo ahi bhi (flmExtHi a b ahi bhi fuel m) := by
  intro fuel
  induction fuel with
  | zero =>
    intro m hm
    simpa [flmExtHi] using hm
  | succ n ih =>
    intro m hm
    simp only [flmExtHi]
    split_ifs with hg
    · obtain ⟨hg1, hg2, hg3⟩ := hg
      obtain ⟨h1, h2, h3, h4, h5⟩ := hm
      refine ih _ ⟨by simp; omega, by simp; omega, by simp; omega, by simp; omega, ?_⟩
      intro t ht
      simp only at ht ⊢
      rcases (by omega : t < m.2.2 ∨ t = m.2.2) with hts | rfl
      · exact h5 t hts
      · exact hg3
    · exact hm

theorem find_longest_match_ok {a b : List Nat} (bjf : Nat → List Nat)
    (hbj : ∀ c j, j ∈ bjf c → j < b.length ∧ b.getD j 0 = c)
    {alo ahi blo bhi : Nat} (hab : alo ≤ ahi) (hbb : blo ≤ bhi) :
    BestOK a b alo blo ahi bhi (find_longest_match a b bjf alo ahi blo bhi) := by
  unfold find_longest_match
  apply flmExtHi_ok
  apply flmExtLo_ok
  apply flmOuter_ok bjf hbj (ahi - alo) alo _ _ le_rfl (by omega)
    (fun _ => Or.inl rfl)
  exact ⟨le_rfl, le_rfl, by simpa using hab, by simpa using hbb,
    fun t ht => absurd ht (show ¬ t < 0 by omega)⟩

theorem blocksIn_mono {a b : List Nat} :
    ∀ {l : List (Nat × Nat × Nat)} {alo blo ahi bhi alo2 blo2 ahi2 bhi2 : Nat},
      BlocksIn a b alo blo ahi bhi l → alo2 ≤ alo → blo2 ≤ blo →
      ahi ≤ ahi2 → bhi ≤ bhi2 → BlocksIn a b alo2 blo2 ahi2 bhi2 l := by
  intro l
  induction l with
  | nil =>
    intro alo blo ahi bhi alo2 blo2 ahi2 bhi2 _ _ _ _ _
    simp [BlocksIn]
  | cons hd tl ih =>
    obtain ⟨i, j, k⟩ := hd
    intro alo blo ahi bhi alo2 blo2 ahi2 bhi2 h h1 h2 h3 h4
    simp only [BlocksIn] at h ⊢
    obtain ⟨g1, g2, g3, g4, g5, g6, g7⟩ := h
    exact ⟨by omega, by omega, by omega, by omega, g5, g6,
      ih g7 le_rfl le_rfl h3 h4⟩

theorem blocksIn_append {a b : List Nat} :
    ∀ {l1 l2 : List (Nat × Nat × Nat)} {alo blo m1 m2 ahi bhi : Nat},
      BlocksIn a b alo blo m1 m2 l1 → BlocksIn a b m1 m2 ahi bhi l2 →
      alo ≤ m1 → blo ≤ m2 → m1 ≤ ahi → m2 ≤ bhi →
      BlocksIn a b alo blo ahi bhi (l1 ++ l2) := by
  intro l1
  induction l1 with
  | nil =>
    intro l2 alo blo m1 m2 ahi bhi _ h2 h3 h4 h5 h6
    simpa using blocksIn_mono h2 h3 h4 le_rfl le_rfl
  | cons hd t ih =>
    obtain ⟨i, j, k⟩ := hd
    intro l2 alo blo m1 m2 ahi bhi h1 h2 h3 h4 h5 h6
    simp only [BlocksIn, List.cons_append] at h1 ⊢
    obtain ⟨g1, g2, g3, g4, g5, g6, g7⟩ := h1
    exact ⟨g1, g2, by omega, by omega, g5, g6, ih g7 h2 (by omega) (by omega) h5 h6⟩

theorem matchingBlocksGo_ok {a b : List Nat} :
    ∀ fuel alo ahi blo bhi, alo ≤ ahi → blo ≤ bhi →
      BlocksIn a b alo blo ahi bhi
        (matchingBlocksGo a b (b2j b) fuel alo ahi blo bhi) := by
  intro fuel
  induction fuel with
  | zero =>
    intro alo ahi blo bhi _ _
    simp [matchingBlocksGo, BlocksIn]
  | succ n ih =>
    intro alo ahi blo bhi hab hbb
    have hm := find_longest_match_ok (b2j b) (fun _ _ hj => mem_b2j hj)
      (a := a) hab hbb
    simp only [matchingBlocksGo]
    rcases hflm : find_longest_match a b (b2j b) alo ahi blo bhi with ⟨mi, mj, mk⟩
    rw [hflm] at hm
    obtain ⟨h1, h2, h3, h4, h5⟩ := hm
    simp only at h1 h2 h3 h4 h5
    simp only [hflm]
    split_ifs with hk0 hL hR
    · simp [BlocksIn]
    · -- left and right recursions both taken
      have hleft := ih alo mi blo mj (by omega) (by omega)
      have hright := ih (mi + mk) ahi (mj + mk) bhi (by omega) (by omega)
      have hmid : BlocksIn a b mi mj ahi bhi ((mi, mj, mk) ::
          matchingBlocksGo a b (b2j b) n (mi + mk) ahi (mj + mk) bhi) := by
        simp only [BlocksIn]
        exact ⟨le_rfl, le_rfl, h3, h4, by omega, h5, hright⟩
      have := blocksIn_append hleft hmid h1 h2 (by omega) (by omega)
      simpa using this
    · -- left only
      have hleft := ih alo mi blo mj (by omega) (by omega)
      have hmid : BlocksIn a b mi mj ahi bhi [(mi, mj, mk)] := by
        simp only [BlocksIn]
        exact ⟨le_rfl, le_rfl, h3, h4, by omega, h5, trivial⟩
      have := blocksIn_append hleft hmid h1 h2 (by omega) (by omega)
      simpa using this
    · -- right only
      have hright := ih (mi + mk) ahi (mj + mk) bhi (by omega) (by omega)
      simp only [List.nil_append, List.singleton_append, BlocksIn]
      exact ⟨h1, h2, h3, h4, by omega, h5, hright⟩
    · -- neither
      simp only [List.nil_append, List.singleton_append, BlocksIn]
      exact ⟨h1, h2, h3, h4, by omega, h5, trivial⟩

theorem blocksIn_chain {a b : List Nat} :
    ∀ {l : List (Nat × Nat × Nat)} {alo blo : Nat},
      BlocksIn a b alo blo a.length b.length l → BlocksChain a b alo blo l := by
  intro l
  induction l with
  | nil =>
    intro alo blo _
    simp [BlocksChain]
  | cons hd t ih =>
    obtain ⟨i, j, k⟩ := hd
    intro alo blo h
    simp only [BlocksIn] at h
    simp only [BlocksChain]
    obtain ⟨g1, g2, g3, g4, _, g6, g7⟩ := h
    exact ⟨g1, g2, g3, g4, g6, ih g7⟩

theorem blocksChain_mono {a b : List Nat} :
    ∀ {l : List (Nat × Nat × Nat)} {i0 j0 i0b j0b : Nat},
      BlocksChain a b i0 j0 l → i0b ≤ i0 → j0b ≤ j0 →
      BlocksChain a b i0b j0b l := by
  intro l
  induction l with
  | nil =>
    intro i0 j0 i0b j0b _ _ _
    simp [BlocksChain]
  | cons hd t ih =>
    obtain ⟨i, j, k⟩ := hd
    intro i0 j0 i0b j0b h h1 h2
    simp only [BlocksChain] at h ⊢
    obtain ⟨g1, g2, g3, g4, g5, g6⟩ := h
    exact ⟨by omega, by omega, g3, g4, g5, g6⟩

theorem collapseGo_ok {a b : List Nat} :
    ∀ {l : List (Nat × Nat × Nat)} {i1 j1 k1 : Nat},
      BlocksChain a b (i1 + k1) (j1 + k1) l →
      i1 + k1 ≤ a.length → j1 + k1 ≤ b.length →
      (∀ t < k1, a.getD (i1 + t) 0 = b.getD (j1 + t) 0) →
      BlocksChain a b i1 j1 (collapseGo (i1, j1, k1) l) := by
  intro l
  induction l with
  | nil =>
    intro i1 j1 k1 _ hla hlb hm
    simp only [collapseGo]
    split_ifs with hk
    · simp only [BlocksChain]
      exact ⟨le_rfl, le_rfl, hla, hlb, hm, trivial⟩
    · simp [BlocksChain]
  | cons hd t ih =>
    obtain ⟨i2, j2, k2⟩ := hd
    intro i1 j1 k1 hchain hla hlb hm
    simp only [BlocksChain] at hchain
    obtain ⟨c1, c2, c3, c4, c5, c6⟩ := hchain
    simp only [collapseGo]
    split_ifs with hadj hk1
    · obtain ⟨ha1, ha2⟩ := hadj
      apply ih
      · have e1 : i1 + (k1 + k2) = i2 + k2 := by omega
        have e2 : j1 + (k1 + k2) = j2 + k2 := by omega
        rw [e1, e2]
        exact c6
      · omega
      · omega
      · intro t ht
        by_cases htk : t < k1
        · exact hm t htk
        · have e1 : i1 + t = i2 + (t - k1) := by omega
          have e2 : j1 + t = j2 + (t - k1) := by omega
          rw [e1, e2]
          exact c5 (t - k1) (by omega)
    · simp only [List.singleton_append, BlocksChain]
      refine ⟨le_rfl, le_rfl, hla, hlb, hm, ?_⟩
      exact blocksChain_mono (ih c6 c3 c4 c5) c1 c2
    · simp only [List.nil_append]
      exact blocksChain_mono (ih c6 c3 c4 c5) (by omega) (by omega)

theorem blocksChain_term {a b : List Nat} :
    ∀ {l : List (Nat × Nat × Nat)} {i0 j0 : Nat},
      BlocksChain a b i0 j0 l → i0 ≤ a.length → j0 ≤ b.length →
      BlocksChain a b i0 j0 (l ++ [(a.length, b.length, 0)]) := by
  intro l
  induction l with
  | nil =>
    intro i0 j0 _ h1 h2
    simp only [List.nil_append, BlocksChain]
    exact ⟨h1, h2, by omega, by omega, fun t ht => absurd ht (by omega), trivial⟩
  | cons hd t ih =>
    obtain ⟨i, j, k⟩ := hd
    intro i0 j0 h h1 h2
    simp only [BlocksChain, List.cons_append] at h ⊢
    obtain ⟨g1, g2, g3, g4, g5, g6⟩ := h
    exact ⟨g1, g2, g3, g4, g5, ih g6 g3 g4⟩

theorem chainEndJ_term :
    ∀ (l : List (Nat × Nat × Nat)) (j0 x y : Nat),
      chainEndJ j0 (l ++ [(x, y, 0)]) = y := by
  intro l
  induction l with
  | nil =>
    intro j0 x y
    simp [chainEndJ]
  | cons hd t ih =>
    obtain ⟨i, j, k⟩ := hd
    intro j0 x y
    simp only [List.cons_append, chainEndJ]
    exact ih (j + k) x y

theorem opsOKp_cons {a b : List Nat} {op : SMOpcode} {rest : List SMOpcode}
    {j0 jend : Nat} (h1 : op.j1 = j0) (h2 : op.j1 ≤ op.j2)
    (h3 : op.j2 ≤ b.length) (h4 : op.tag = SMTag.delete → op.j1 = op.j2)
    (h5 : op.tag = SMTag.equal → op.i1 ≤ op.i2 ∧ op.i2 ≤ a.length ∧
      op.j2 - op.j1 = op.i2 - op.i1 ∧
      (a.drop op.i1).take (op.i2 - op.i1) = (b.drop op.j1).take (op.j2 - op.j1))
    (h6 : OpsOKp a b op.j2 rest jend) :
    OpsOKp a b j0 (op :: rest) jend := by
  simp only [OpsOKp]
  exact ⟨h1, h2, h3, h4, h5, h6⟩

theorem opsOKp_eq_step {a b : List Nat} {ai bj k : Nat} {rest : List SMOpcode}
    {jend : Nat} (hla : ai + k ≤ a.length) (hlb : bj + k ≤ b.length)
    (hm : ∀ t < k, a.getD (ai + t) 0 = b.getD (bj + t) 0)
    (hrest : OpsOKp a b (bj + k) rest jend) :
    OpsOKp a b bj
      ((if k ≠ 0 then [⟨SMTag.equal, ai, ai + k, bj, bj + k⟩] else []) ++ rest)
      jend := by
  split_ifs with hk
  · rw [List.singleton_append]
    refine opsOKp_cons rfl (show bj ≤ bj + k by omega) hlb
      (fun hq => nomatch hq) (fun _ => ⟨show ai ≤ ai + k by omega, hla,
        show bj + k - bj = ai + k - ai by omega, ?_⟩) hrest
    show (a.drop ai).take (ai + k - ai) = (b.drop bj).take (bj + k - bj)
    have e1 : ai + k - ai = k := by omega
    have e2 : bj + k - bj = k := by omega
    rw [e1, e2]
    exact segEq a b ai bj k hla hlb hm
  · simp only [List.nil_append]
    have hk0 : k = 0 := by omega
    subst hk0
    simpa using hrest

theorem getOpcodesGo_ok {a b : List Nat} :
    ∀ {blocks : List (Nat × Nat × Nat)} {i j : Nat},
      BlocksChain a b i j blocks → j ≤ b.length →
      OpsOKp a b j (getOpcodesGo i j blocks) (chainEndJ j blocks) := by
  intro blocks
  induction blocks with
  | nil =>
    intro i j _ _
    simp [getOpcodesGo, chainEndJ, OpsOKp]
  | cons hd rest ih =>
    obtain ⟨ai, bj, k⟩ := hd
    intro i j hchain hjb
    simp only [BlocksChain] at hchain
    obtain ⟨c1, c2, c3, c4, c5, c6⟩ := hchain
    have hstep := opsOKp_eq_step c3 c4 c5 (ih c6 (by omega))
    simp only [getOpcodesGo, chainEndJ]
    by_cases h1 : i < ai ∧ j < bj
    · rw [if_pos h1, List.singleton_append, List.cons_append]
      exact opsOKp_cons rfl (show j ≤ bj by omega) (show bj ≤ b.length by omega)
        (fun hq => nomatch hq) (fun hq => nomatch hq) hstep
    · rw [if_neg h1]
      by_cases h2 : i < ai
      · rw [if_pos h2]
        have hjbj : j = bj := by omega
        subst hjbj
        rw [List.singleton_append, List.cons_append]
        exact opsOKp_cons rfl le_rfl (show j ≤ b.length by omega)
          (fun _ => rfl) (fun hq => nomatch hq) hstep
      · rw [if_neg h2]
        by_cases h3 : j < bj
        · rw [if_pos h3]
          rw [List.singleton_append, List.cons_append]
          exact opsOKp_cons rfl (show j ≤ bj by omega)
            (show bj ≤ b.length by omega) (fun hq => nomatch hq)
            (fun hq => nomatch hq) hstep
        · rw [if_neg h3]
          have hjbj : j = bj := by omega
          subst hjbj
          simpa using hstep

theorem combineGo_ok {a b : List Nat} {eo so : Nat} :
    ∀ {ops : List SMOpcode} {J : Nat} {cur : CombOp} {curReal : Bool}
      {ro jst : Nat},
      OpsOKp a b J ops b.length → J ≤ b.length → jst ≤ J →
      combMeaning a b cur = (b.drop jst).take (J - jst) →
      (curReal = false → jst = J) →
      (match cur with
        | CombOp.ins j1 j2 => j1 = jst ∧ j2 = J
        | CombOp.eq i1 i2 => curReal = true ∧ i1 ≤ i2 ∧ i2 ≤ a.length) →
      (((combineGo eo so ops cur curReal ro).map (combMeaning a b)).flatten =
          (b.drop jst).take (b.length - jst)) ∧
        ∀ op ∈ combineGo eo so ops cur curReal ro, ∀ i1 i2,
          op = CombOp.eq i1 i2 → i1 ≤ i2 ∧ i2 ≤ a.length := by
  intro ops
  induction ops with
  | nil =>
    intro J cur curReal ro jst hops hJ hjst hmean hfake hcur
    simp only [OpsOKp] at hops
    subst hops
    simp only [combineGo]
    rcases cur with ⟨cj1, cj2⟩ | ⟨ci1, ci2⟩
    · cases curReal with
      | false =>
        have hjl := hfake rfl
        subst hjl
        simp
      | true =>
        refine ⟨by simp [hmean], ?_⟩
        intro op2 hop2 k1 k2 hopeq
        simp at hop2
        subst hop2
        simp at hopeq
    · obtain ⟨hreal, hle, hla2⟩ := hcur
      subst hreal
      refine ⟨by simp [hmean], ?_⟩
      intro op2 hop2 k1 k2 hopeq
      simp at hop2
      subst hop2
      simp only [CombOp.eq.injEq] at hopeq
      obtain ⟨rfl, rfl⟩ := hopeq
      exact ⟨hle, hla2⟩
  | cons op rest ih =>
    intro J cur curReal ro jst hops hJ hjst hmean hfake hcur
    simp only [OpsOKp] at hops
    obtain ⟨tag, i1, i2, j1, j2⟩ := op
    simp only at hops
    obtain ⟨ho1, ho2, ho3, hdel, heq, hrest⟩ := hops
    subst ho1
    cases tag with
    | insert =>
      rcases cur with ⟨cj1, cj2⟩ | ⟨ci1, ci2⟩
      · obtain ⟨hc1, hc2⟩ := hcur
        subst hc1
        simp only [combineGo]
        exact ih hrest ho3 (by omega) rfl (fun h => nomatch h) ⟨rfl, rfl⟩
      · obtain ⟨hreal, hle, hla2⟩ := hcur
        subst hreal
        simp only [combineGo]
        obtain ⟨hr1, hr2⟩ := @ih j2 (CombOp.ins j1 j2) true ro j1
          hrest ho3 ho2 rfl (fun h => nomatch h) ⟨rfl, rfl⟩
        constructor
        · simp only [if_true, eq_self_iff_true, List.singleton_append,
            List.map_cons, List.flatten_cons, if_pos]
          rw [hmean, hr1]
          exact dropTake_append b _ _ _ hjst hJ
        · intro op2 hop2 k1 k2 hopeq
          simp only [if_true, eq_self_iff_true, List.singleton_append,
            if_pos, List.mem_cons] at hop2
          rcases hop2 with rfl | hmem
          · simp only [CombOp.eq.injEq] at hopeq
            obtain ⟨rfl, rfl⟩ := hopeq
            exact ⟨hle, hla2⟩
          · exact hr2 op2 hmem k1 k2 hopeq
    | replace =>
      rcases cur with ⟨cj1, cj2⟩ | ⟨ci1, ci2⟩
      · obtain ⟨hc1, hc2⟩ := hcur
        subst hc1
        simp only [combineGo]
        exact ih hrest ho3 (by omega) rfl (fun h => nomatch h) ⟨rfl, rfl⟩
      · obtain ⟨hreal, hle, hla2⟩ := hcur
        subst hreal
        simp only [combineGo]
        obtain ⟨hr1, hr2⟩ := @ih j2 (CombOp.ins j1 j2) true ro j1
          hrest ho3 ho2 rfl (fun h => nomatch h) ⟨rfl, rfl⟩
        constructor
        · simp only [if_true, eq_self_iff_true, List.singleton_append,
            List.map_cons, List.flatten_cons, if_pos]
          rw [hmean, hr1]
          exact dropTake_append b _ _ _ hjst hJ
        · intro op2 hop2 k1 k2 hopeq
          simp only [if_true, eq_self_iff_true, List.singleton_append,
            if_pos, List.mem_cons] at hop2
          rcases hop2 with rfl | hmem
          · simp only [CombOp.eq.injEq] at hopeq
            obtain ⟨rfl, rfl⟩ := hopeq
            exact ⟨hle, hla2⟩
          · exact hr2 op2 hmem k1 k2 hopeq
    | delete =>
      have hj2 : j2 = j1 := by
        have := hdel rfl
        omega
      subst hj2
      simp only [combineGo]
      exact ih hrest hJ hjst hmean hfake hcur
    | equal =>
      obtain ⟨hie, hia2, hlen, hseg⟩ := heq rfl
      rcases cur with ⟨cj1, cj2⟩ | ⟨ci1, ci2⟩
      · obtain ⟨hc1, hc2⟩ := hcur
        subst hc1
        simp only [combineGo]
        by_cases habs : i2 - i1 ≤ eo + (if ro ≠ i1 then so else 0)
        · rw [if_pos habs]
          exact ih hrest ho3 (by omega) rfl (fun h => nomatch h) ⟨rfl, rfl⟩
        · rw [if_neg habs]
          obtain ⟨hr1, hr2⟩ := @ih j2 (CombOp.eq i1 i2) true i2 j1
            hrest ho3 ho2 hseg (fun h => nomatch h) ⟨rfl, hie, hia2⟩
          cases curReal with
          | false =>
            have hjl := hfake rfl
            subst hjl
            constructor
            · simpa using hr1
            · intro op2 hop2 k1 k2 hopeq
              simp at hop2
              exact hr2 op2 hop2 k1 k2 hopeq
          | true =>
            constructor
            · simp only [if_true, eq_self_iff_true, List.singleton_append,
                List.map_cons, List.flatten_cons, if_pos]
              rw [hmean, hr1]
              exact dropTake_append b _ _ _ hjst hJ
            · intro op2 hop2 k1 k2 hopeq
              simp only [if_true, eq_self_iff_true, List.singleton_append,
                if_pos, List.mem_cons] at hop2
              rcases hop2 with rfl | hmem
              · simp at hopeq
              · exact hr2 op2 hmem k1 k2 hopeq
      · obtain ⟨hreal, hle, hla2⟩ := hcur
        subst hreal
        simp only [combineGo]
        obtain ⟨hr1, hr2⟩ := @ih j2 (CombOp.eq i1 i2) true i2 j1
          hrest ho3 ho2 hseg (fun h => nomatch h) ⟨rfl, hie, hia2⟩
        constructor
        · simp only [if_true, eq_self_iff_true, List.singleton_append,
            List.map_cons, List.flatten_cons, if_pos]
          rw [hmean, hr1]
          exact dropTake_append b _ _ _ hjst hJ
        · intro op2 hop2 k1 k2 hopeq
          simp only [if_true, eq_self_iff_true, List.singleton_append,
            if_pos, List.mem_cons] at hop2
          rcases hop2 with rfl | hmem
          · simp only [CombOp.eq.injEq] at hopeq
            obtain ⟨rfl, rfl⟩ := hopeq
            exact ⟨hle, hla2⟩
          · exact hr2 op2 hmem k1 k2 hopeq

theorem combine_ok {a b : List Nat} {eo so : Nat} {ops : List SMOpcode}
    (h : OpsOKp a b 0 ops b.length) :
    (((combine_sm_operations ops eo so).map (combMeaning a b)).flatten = b) ∧
      ∀ op ∈ combine_sm_operations ops eo so, ∀ i1 i2,
        op = CombOp.eq i1 i2 → i1 ≤ i2 ∧ i2 ≤ a.length := by
  unfold combine_sm_operations
  obtain ⟨h1, h2⟩ := @combineGo_ok a b eo so ops 0 (CombOp.ins 0 0) false 0 0
    h (Nat.zero_le _) le_rfl rfl (fun _ => rfl) ⟨rfl, rfl⟩
  exact ⟨by simpa using h1, h2⟩

theorem dataToWritesGo_run (old : List Nat) {blockSize : Nat}
    (hbs : 1 ≤ blockSize) :
    ∀ fuel data out pos, data.length ≤ fuel → (∀ c ∈ data, c < 256) →
      ((dataToWritesGo blockSize fuel data).map Prod.fst).foldl (runCmd old)
          ⟨out, pos⟩ = ⟨out ++ data, pos⟩ := by
  intro fuel
  induction fuel with
  | zero =>
    intro data out pos hlen _
    have hnil : data = [] := List.eq_nil_of_length_eq_zero (by omega)
    subst hnil
    simp [dataToWritesGo]
  | succ n ih =>
    intro data out pos hlen hbytes
    simp only [dataToWritesGo]
    by_cases hemp : data.isEmpty
    · rw [if_pos hemp]
      have hnil : data = [] := by
        cases data with
        | nil => rfl
        | cons c t => simp [List.isEmpty] at hemp
      subst hnil
      simp
    · rw [if_neg hemp]
      have hne : data ≠ [] := by
        intro hcon
        subst hcon
        simp at hemp
      have hlen1 : 1 ≤ data.length := List.length_pos.2 hne
      have hrest : (data.drop blockSize).length ≤ n := by
        simp only [List.length_drop]
        omega
      have hbrest : ∀ c ∈ data.drop blockSize, c < 256 :=
        fun c hc => hbytes c (List.drop_subset _ _ hc)
      split_ifs with hfmt
      · simp only [List.map_cons, List.foldl_cons]
        rw [show runCmd old ⟨out, pos⟩ (UpdateCmd.wLit (data.take blockSize)) =
          ⟨out ++ data.take blockSize, pos⟩ from rfl]
        rw [ih (data.drop blockSize) _ _ hrest hbrest]
        rw [List.append_assoc, List.take_append_drop]
      · simp only [List.map_cons, List.foldl_cons]
        have hrt : unhexlify (hexlify (data.take blockSize)) =
            some (data.take blockSize) :=
          unhexlify_hexlify _ (fun c hc => hbytes c (List.take_subset _ _ hc))
        rw [show runCmd old ⟨out, pos⟩ (UpdateCmd.wHex (hexlify (data.take blockSize))) =
          ⟨out ++ ((unhexlify (hexlify (data.take blockSize))).getD []), pos⟩ from rfl]
        rw [hrt]
        simp only [Option.getD_some]
        rw [ih (data.drop blockSize) _ _ hrest hbrest]
        rw [List.append_assoc, List.take_append_drop]

theorem readLoopGo_run (old : List Nat) {blockSize : Nat} (hbs : 1 ≤ blockSize) :
    ∀ fuel ro i2 out, i2 - ro ≤ fuel → i2 ≤ old.length →
      ((readLoopGo blockSize fuel ro i2).map Prod.fst).foldl (runCmd old)
          ⟨out, ro⟩ =
        ⟨out ++ (old.drop ro).take (i2 - ro), if ro < i2 then i2 else ro⟩ := by
  intro fuel
  induction fuel with
  | zero =>
    intro ro i2 out hf hla
    simp [readLoopGo, show ¬ ro < i2 by omega, show i2 - ro = 0 by omega]
  | succ n ih =>
    intro ro i2 out hf hla
    simp only [readLoopGo]
    split_ifs with hlt
    · simp only [List.map_cons, List.foldl_cons]
      have hlen1 : 1 ≤ min (i2 - ro) blockSize := by omega
      have hrl : ((old.drop ro).take (min (i2 - ro) blockSize)).length =
          min (i2 - ro) blockSize := by
        simp only [List.length_take, List.length_drop]
        omega
      rw [show runCmd old ⟨out, ro⟩ (UpdateCmd.wRead (min (i2 - ro) blockSize)) =
        ⟨out ++ (old.drop ro).take (min (i2 - ro) blockSize),
          ro + ((old.drop ro).take (min (i2 - ro) blockSize)).length⟩ from rfl]
      rw [hrl]
      rw [ih (ro + min (i2 - ro) blockSize) i2 _ (by omega) hla]
      simp only [PatchState.mk.injEq]
      constructor
      · rw [List.append_assoc]
        congr 1
        have hcomb := dropTake_append old ro (ro + min (i2 - ro) blockSize) i2
          (by omega) (by omega)
        have e : ro + min (i2 - ro) blockSize - ro = min (i2 - ro) blockSize := by
          omega
        rw [e] at hcomb
        exact hcomb
      · split_ifs <;> omega
    · simp [show i2 - ro = 0 by omega]

theorem updCmdsGo_run (old newC : List Nat) {blockSize : Nat}
    (hbs : 1 ≤ blockSize) (hbytes : ∀ c ∈ newC, c < 256) :
    ∀ l ro out,
      (∀ op ∈ l, ∀ i1 i2, op = CombOp.eq i1 i2 → i1 ≤ i2 ∧ i2 ≤ old.length) →
      ∃ p, ((updCmdsGo newC blockSize ro l).map Prod.fst).foldl (runCmd old)
          ⟨out, ro⟩ =
        ⟨out ++ (l.map (combMeaning old newC)).flatten, p⟩ := by
  intro l
  induction l with
  | nil =>
    intro ro out _
    exact ⟨ro, by simp [updCmdsGo]⟩
  | cons op rest ih =>
    intro ro out hops
    have hrest : ∀ op2 ∈ rest, ∀ i1 i2, op2 = CombOp.eq i1 i2 →
        i1 ≤ i2 ∧ i2 ≤ old.length :=
      fun op2 h => hops op2 (List.mem_cons_of_mem _ h)
    rcases op with ⟨j1, j2⟩ | ⟨i1, i2⟩
    · simp only [updCmdsGo, List.map_append, List.foldl_append]
      rw [show data_to_writes ((newC.drop j1).take (j2 - j1)) blockSize =
        dataToWritesGo blockSize ((newC.drop j1).take (j2 - j1)).length
          ((newC.drop j1).take (j2 - j1)) from rfl]
      rw [dataToWritesGo_run old hbs _ _ _ _ le_rfl
        (fun c hc => hbytes c (List.drop_subset _ _ (List.take_subset _ _ hc)))]
      obtain ⟨p, hp⟩ := ih ro (out ++ (newC.drop j1).take (j2 - j1)) hrest
      refine ⟨p, ?_⟩
      rw [hp]
      simp [combMeaning, List.append_assoc]
    · have hb := hops _ (List.mem_cons_self _ _) i1 i2 rfl
      simp only [updCmdsGo, List.map_append, List.foldl_append]
      have hposmax : (if i1 < i2 then i2 else i1) = max i1 i2 := by
        split_ifs <;> omega
      by_cases hro : ro ≠ i1
      · rw [if_pos hro]
        simp only [List.map_cons, List.map_nil, List.foldl_cons, List.foldl_nil]
        rw [show runCmd old ⟨out, ro⟩ (UpdateCmd.seek i1) = ⟨out, i1⟩ from rfl]
        rw [readLoopGo_run old hbs i2 i1 i2 out (by omega) hb.2, hposmax]
        obtain ⟨p, hp⟩ := ih (max i1 i2) (out ++ (old.drop i1).take (i2 - i1))
          hrest
        refine ⟨p, ?_⟩
        rw [hp]
        simp [combMeaning, List.append_assoc]
      · rw [if_neg hro]
        push_neg at hro
        subst hro
        simp only [List.map_nil, List.foldl_nil]
        rw [readLoopGo_run old hbs i2 ro i2 out (by omega) hb.2, hposmax]
        obtain ⟨p, hp⟩ := ih (max ro i2) (out ++ (old.drop ro).take (i2 - ro))
          hrest
        refine ⟨p, ?_⟩
        rw [hp]
        simp [combMeaning, List.append_assoc]

theorem get_opcodes_ok (a b : List Nat) :
    OpsOKp a b 0 (get_opcodes a b) b.length := by
  have hblocks := matchingBlocksGo_ok (a := a) (b := b)
    (a.length + b.length + 1) 0 a.length 0 b.length (Nat.zero_le _)
    (Nat.zero_le _)
  have hchain0 : BlocksChain a b 0 0
      (collapseGo (0, 0, 0)
        (matchingBlocksGo a b (b2j b) (a.length + b.length + 1) 0 a.length 0
          b.length)) := by
    apply collapseGo_ok
    · simpa using blocksIn_chain hblocks
    · omega
    · omega
    · intro t ht
      exact absurd ht (by omega)
  have hchain : BlocksChain a b 0 0 (get_matching_blocks a b) := by
    unfold get_matching_blocks
    exact blocksChain_term hchain0 (Nat.zero_le _) (Nat.zero_le _)
  have hend : chainEndJ 0 (get_matching_blocks a b) = b.length := by
    unfold get_matching_blocks
    exact chainEndJ_term _ _ _ _
  have hres := getOpcodesGo_ok hchain (Nat.zero_le _)
  rw [hend] at hres
  exact hres

theorem updPipeline_ok (old newC : List Nat) (blockSize eo so : Nat)
    (hbs : 1 ≤ blockSize) (hbytes : ∀ c ∈ newC, c < 256) :
    (applyCmds old ((updCmdsGo newC blockSize 0
        (combine_sm_operations (get_opcodes old newC) eo so)).map
          Prod.fst)).out = newC := by
  obtain ⟨hflat, hbounds⟩ := @combine_ok old newC eo so (get_opcodes old newC)
    (get_opcodes_ok old newC)
  obtain ⟨p, hp⟩ := updCmdsGo_run old newC hbs hbytes _ 0 [] hbounds
  unfold applyCmds
  rw [hp]
  simp [hflat]

/-- C1: for all byte strings `old_content` and `new_content`, interpreting in
order the command stream produced by
`data_to_update_commands(old_content, new_content, block_size)` — where `w`
appends its argument to the output file, `r(n)` reads `n` bytes from
`old_content` at the current read cursor, `s(i)` seeks the read cursor to
`i`, and `uh` is unhexlify — produces an output file whose contents are
exactly `new_content`.  This holds for every positive block size (with
`block_size = 0` the source's `while` loops never terminate). -/
theorem data_to_update_commands_correct (old newC : List Nat)
    (blockSize : Nat) (hbs : 1 ≤ blockSize) (hbytes : ∀ c ∈ newC, c < 256) :
    (applyCmds old
        ((data_to_update_commands old newC blockSize).map Prod.fst)).out =
      newC :=
  updPipeline_ok old newC blockSize _ _ hbs hbytes

/-- Witness for `data_to_update_commands_correct`: patching `[10, 20, 30]`
into `[10, 200, 30, 255, 0]` with block size 2 reproduces the new content
exactly. -/
theorem data_to_update_commands_correct_witness :
    (1 ≤ 2 ∧ ∀ c ∈ [10, 200, 30, 255, 0], c < 256) ∧
      (applyCmds [10, 20, 30]
          ((data_to_update_commands [10, 20, 30] [10, 200, 30, 255, 0] 2).map
            Prod.fst)).out = [10, 200, 30, 255, 0] :=
  ⟨⟨by decide, by decide⟩,
    data_to_update_commands_correct [10, 20, 30] [10, 200, 30, 255, 0] 2
      (by decide) (by decide)⟩

end Upyt
